import Mathlib

/-
Verification of the extraction pipeline of the AD schema toolkit.

The pipeline under study lives in two Python modules:
  * scripts/parse_ms_ada_pdfs.py — block segmentation, per-field regex
    extraction with multiline continuation repair, consolidation into a
    keyed table, and export to the enhanced JSON schema format;
  * src/ad_schema_tool/cli.py — loading of the persisted schema file and
    GUID/name lookup.

Strings are modelled as lists of characters (`Str`).  Python regular
expressions are embedded by translating the exact backtracking semantics of
the three fixed patterns the module uses; Python `str` helpers (`strip`,
`split`, `replace`, `lower`, `in`) are translated as executable functions.
`\d` is modelled as an ASCII digit and `\s` / `str.strip` whitespace as the
common whitespace characters (including U+00A0, which the source uses as an
indent marker); `str.lower` is modelled as ASCII lowercasing.
-/

/-- Program strings: lists of characters. -/
abbrev Str := List Char

/-- Whitespace test used to model Python `\s` and `str.strip`: space, tab,
newline, carriage return, vertical tab, form feed and U+00A0. -/
def isPySpace (c : Char) : Bool :=
  c = ' ' || c = '\t' || c = '\n' || c = '\r' ||
  c = '\u000b' || c = '\u000c' || c = '\u00A0'

/-- Left trim: Python `str.lstrip()` restricted to whitespace. -/
def trimL (s : Str) : Str := s.dropWhile isPySpace

/-- Right trim: Python `str.rstrip()` restricted to whitespace. -/
def trimR (s : Str) : Str := s.rdropWhile isPySpace

/-- Python `str.strip()`. -/
def stripStr (s : Str) : Str := trimR (trimL s)

/-- Replace a whitespace character by a plain space, keep others. -/
def mapWsChar (c : Char) : Char := if isPySpace c then ' ' else c

/-- Collapse runs of adjacent spaces to a single space. -/
def collapseSp : Str → Str
  | [] => []
  | [c] => [c]
  | a :: b :: r =>
    if a = ' ' && b = ' ' then collapseSp (b :: r) else a :: collapseSp (b :: r)

/-- Python `re.sub(r"\s+", " ", s)`: each maximal whitespace run becomes one
space (every whitespace character becomes a space, then adjacent spaces are
merged — the same function, stated structurally). -/
def normWs (s : Str) : Str := collapseSp (s.map mapWsChar)

/-- Python `s.split("\n")`: the list of lines (an empty string yields one
empty line, like Python). -/
def splitLines : Str → List Str
  | [] => [[]]
  | c :: r =>
    if c = '\n' then [] :: splitLines r
    else
      match splitLines r with
      | [] => [[c]]
      | l :: ls => (c :: l) :: ls

/-- Inverse of `splitLines`: join lines with a newline separator. -/
def unsplit : List Str → Str
  | [] => []
  | [l] => l
  | l :: ls => l ++ '\n' :: unsplit ls

/-- Whether `p` is a prefix of `s` (Boolean, character-exact). -/
def isPrefixStr : Str → Str → Bool
  | [], _ => true
  | _, [] => false
  | a :: as, b :: bs => a = b && isPrefixStr as bs

/-- Python `needle in hay`: contiguous substring containment. -/
def containsStr (needle : Str) : Str → Bool
  | [] => needle.isEmpty
  | c :: rest => isPrefixStr needle (c :: rest) || containsStr needle rest

/-- Case-insensitive removal of the label from the front of a line tail,
modelling `re.IGNORECASE` matching of the literal label (ASCII lowering).
Returns the rest of the line after the label on success. -/
def dropLabelCI : Str → Str → Option Str
  | [], s => some s
  | _, [] => none
  | p :: ps, c :: cs => if p.toLower = c.toLower then dropLabelCI ps cs else none

/-- Python `line.replace("\xa0\xa0", "")`: delete all non-overlapping
occurrences of the double U+00A0 indent marker, scanning left to right. -/
def replaceNbsp2 : Str → Str
  | [] => []
  | [c] => [c]
  | a :: b :: rest =>
    if a = '\u00A0' && b = '\u00A0' then replaceNbsp2 rest
    else a :: replaceNbsp2 (b :: rest)

/-- Python truthiness of an optional string: `None` and `""` are falsy. -/
def truthyO : Option Str → Bool
  | none => false
  | some s => !s.isEmpty

/-- One extracted attribute record (dataclass `ADAttribute` of
parse_ms_ada_pdfs.py).  The two syntax-descriptor fields are named
`attributeSyntaxVal` / `omSyntaxVal` here for the source's
`attribute_syntax` / `om_syntax`. -/
structure ADAttribute where
  cn : Option Str := none
  ldap_display_name : Option Str := none
  attribute_id : Option Str := none
  attributeSyntaxVal : Option Str := none
  omSyntaxVal : Option Str := none
  schema_id_guid : Option Str := none
  is_single_valued : Option Str := none
  system_only : Option Str := none
  search_flags : Option Str := none
  range_lower : Option Str := none
  range_upper : Option Str := none
  attribute_security_guid : Option Str := none
  mapi_id : Option Str := none
  isMemberOfPartialAttributeSet : Option Str := none
  system_flags : Option Str := none
  schema_flags_ex : Option Str := none
  source_section : Option Str := none
  source_pdf : Option Str := none
deriving DecidableEq, Repr

/-- The all-defaults record, as built by `ADAttribute(...)` before field
assignment. -/
instance : Inhabited ADAttribute := ⟨{}⟩

/-- The recognized field labels, in the iteration order of
`MSADAPDFParser.field_patterns`.  Each field pattern is
`^\xa0<label>:\s*(.+)$` with `re.MULTILINE | re.IGNORECASE`. -/
def cnLabel : Str := "cn".toList

def ldapDisplayNameLabel : Str := "ldapDisplayName".toList

def attributeIdLabel : Str := "attributeId".toList

def attributeSyntaxLabel : Str := "attributeSyntax".toList

def omSyntaxLabel : Str := "omSyntax".toList

def schemaIdGuidLabel : Str := "schemaIdGuid".toList

def isSingleValuedLabel : Str := "isSingleValued".toList

def systemOnlyLabel : Str := "systemOnly".toList

def searchFlagsLabel : Str := "searchFlags".toList

def rangeLowerLabel : Str := "rangeLower".toList

def rangeUpperLabel : Str := "rangeUpper".toList

def attributeSecurityGuidLabel : Str := "attributeSecurityGuid".toList

def mapiIDLabel : Str := "mapiID".toList

def isMemberOfPASLabel : Str := "isMemberOfPartialAttributeSet".toList

def systemFlagsLabel : Str := "systemFlags".toList

def schemaFlagsExLabel : Str := "schemaFlagsEx".toList

/-- Semantics of the pattern tail `\s*(.+)$` applied at text `T` (`T` is the
text right after the matched `:` and runs to the end of the block; `\s`
matches newlines, `.` does not, `$` matches before a newline or at the end).
Returns `(group 1, consumed text)` of the match the backtracking engine
finds, or `none` when no match exists at this start position:

* the greedy `\s*` swallows the maximal whitespace run; if a character is
  left it is not whitespace (hence not a newline) and `(.+)` captures from it
  to the end of that line;
* otherwise `T` is all whitespace and `\s*` backtracks minimally, so `(.+)`
  captures exactly the last character of `T` that is not a newline (the
  characters after it are newlines, so `$` holds); if every character of `T`
  is a newline the attempt fails. -/
def fieldTailMatch (T : Str) : Option (Str × Str) :=
  match T.dropWhile isPySpace with
  | c :: u' =>
    some ((c :: u').takeWhile (fun x => x ≠ '\n'),
      T.takeWhile isPySpace ++ (c :: u').takeWhile (fun x => x ≠ '\n'))
  | [] =>
    match T.reverse.dropWhile (fun c => c = '\n') with
    | [] => none
    | c :: v' => some ([c], (c :: v').reverse)

/-- One attempt of the field pattern `^\xa0<label>:\s*(.+)$` at the line
start beginning `line`, with `rest` the lines after it.  Returns
`(group 1, group 0)` on success.  `group 0` runs from the start of the line
to the end of the capture. -/
def tryFieldLine (label : Str) (line : Str) (rest : List Str) : Option (Str × Str) :=
  match line with
  | '\u00A0' :: t1 =>
    match dropLabelCI label t1 with
    | some (':' :: R) =>
      match fieldTailMatch (unsplit (R :: rest)) with
      | some (cap, consumed) =>
        some (cap, line.take (line.length - R.length) ++ consumed)
      | none => none
    | _ => none
  | _ => none

/-- Whether a line carries the label of a field pattern: it starts with the
U+00A0 marker, then the label (case-insensitively), then a colon.  A field
pattern can match at a line start only when this holds. -/
def isLabelLine (label : Str) (line : Str) : Bool :=
  match line with
  | '\u00A0' :: t1 =>
    match dropLabelCI label t1 with
    | some (':' :: _) => true
    | _ => false
  | _ => false

/-- `re.search` of a field pattern over the block: try each line start in
order (MULTILINE `^` matches at the start of the text and after each
newline) and return the first match. -/
def searchFieldLines (label : Str) : List Str → Option (Str × Str)
  | [] => none
  | line :: rest =>
    match tryFieldLine label line rest with
    | some r => some r
    | none => searchFieldLines label rest

/-- `pattern.search(attr_block)` for the field pattern of `label`. -/
def searchField (label : Str) (block : Str) : Option (Str × Str) :=
  searchFieldLines label (splitLines block)

/-- The continuation-line scan of `parse_attribute_blocks` (the multiline
repair for `systemFlags` / `schemaFlagsEx`): walk the block's lines; a line
containing `group0stripped` as a substring turns the `start_line_found` flag
on and is skipped; after that, a line starting with the double U+00A0 marker
that mentions `FLAG_` or has non-whitespace content contributes its content
(marker occurrences deleted, then trimmed) preceded by one space; the first
other line stops the scan. -/
def scanCont (g0stripped : Str) : List Str → Bool → Str → Str
  | [], _, acc => acc
  | line :: rest, found, acc =>
    if containsStr g0stripped line then scanCont g0stripped rest true acc
    else if found then
      if isPrefixStr ['\u00A0', '\u00A0'] line &&
          (containsStr "FLAG_".toList line || !(stripStr line).isEmpty) then
        let continuation := stripStr (replaceNbsp2 line)
        scanCont g0stripped rest found
          (if continuation.isEmpty then acc else acc ++ ' ' :: continuation)
      else acc
    else scanCont g0stripped rest found acc

/-- Per-field extraction for a field without multiline repair:
`value = match.group(1).strip()`, then whitespace normalization and a final
trim, as in the extraction loop of `parse_attribute_blocks`. -/
def extractPlain (label : Str) (block : Str) : Option Str :=
  (searchField label block).map (fun p => stripStr (normWs (stripStr p.1)))

/-- Per-field extraction for `system_flags` / `schema_flags_ex`: as
`extractPlain`, but when the trimmed captured value ends in `|` the
continuation-line scan extends it before normalization. -/
def extractFlag (label : Str) (block : Str) : Option Str :=
  (searchField label block).map (fun p =>
    let value := stripStr p.1
    let value :=
      if value.getLast? = some '|' then
        scanCont (stripStr p.2) (splitLines block) false value
      else value
    stripStr (normWs value))

/-- Build the record for one block (the body of the loop in
`parse_attribute_blocks`): extract every recognized field, then fall back to
the heading label for the display name when no `ldapDisplayName` was
captured and the heading label is non-empty. -/
def parseBlock (block : Str) (sectionNum attrName sourcePdf : Str) : ADAttribute :=
  let a : ADAttribute :=
    { cn := extractPlain cnLabel block
      ldap_display_name := extractPlain ldapDisplayNameLabel block
      attribute_id := extractPlain attributeIdLabel block
      attributeSyntaxVal := extractPlain attributeSyntaxLabel block
      omSyntaxVal := extractPlain omSyntaxLabel block
      schema_id_guid := extractPlain schemaIdGuidLabel block
      is_single_valued := extractPlain isSingleValuedLabel block
      system_only := extractPlain systemOnlyLabel block
      search_flags := extractPlain searchFlagsLabel block
      range_lower := extractPlain rangeLowerLabel block
      range_upper := extractPlain rangeUpperLabel block
      attribute_security_guid := extractPlain attributeSecurityGuidLabel block
      mapi_id := extractPlain mapiIDLabel block
      isMemberOfPartialAttributeSet := extractPlain isMemberOfPASLabel block
      system_flags := extractFlag systemFlagsLabel block
      schema_flags_ex := extractFlag schemaFlagsExLabel block
      source_section := some sectionNum
      source_pdf := some sourcePdf }
  if !truthyO a.ldap_display_name && !attrName.isEmpty then
    { a with ldap_display_name := some attrName }
  else a

/-- The literal word of the heading pattern
`^(\d+\.\d+)\s+Attribute\s+(.+)$` (`re.MULTILINE`, case-sensitive). -/
def attrWord : Str := "Attribute".toList

/-- Tail of a heading-pattern attempt: `\s+(.+)$` applied at `t5` (the text
right after the literal word), with `t` and `t2` the texts from which the
two digit groups were taken.  As in `fieldTailMatch`, except that the
backtracked `\s+` must keep at least one whitespace character before the
single-character capture, so a whitespace tail whose sole non-newline
character is its first character fails. -/
def headerTail (t t2 t5 : Str) : Option (Str × Str × Str) :=
  if (t5.takeWhile isPySpace).isEmpty then none
  else
    match t5.dropWhile isPySpace with
    | c :: u' =>
      some (t.takeWhile Char.isDigit ++ '.' :: t2.takeWhile Char.isDigit,
        (c :: u').takeWhile (fun x => x ≠ '\n'),
        (c :: u').drop ((c :: u').takeWhile (fun x => x ≠ '\n')).length)
    | [] =>
      match t5.reverse.dropWhile (fun c => c = '\n') with
      | [] => none
      | [_] => none
      | c :: _ :: _ =>
        some (t.takeWhile Char.isDigit ++ '.' :: t2.takeWhile Char.isDigit, [c],
          t5.drop (t5.reverse.dropWhile (fun c => c = '\n')).length)

/-- One attempt of the heading pattern `^(\d+\.\d+)\s+Attribute\s+(.+)$` at
a line start whose text suffix is `t`.  Returns `(group 1, group 2, rest)`
where `rest` is the text after the match.  Backtracking is deterministic for
this pattern: each `\d+` takes the maximal digit run (a shorter run would
leave a digit where `.` or whitespace is required) and each `\s+` the
maximal whitespace run, which may cross newlines (shortening it would leave
whitespace where a non-whitespace character is required). -/
def headerMatchAt (t : Str) : Option (Str × Str × Str) :=
  if (t.takeWhile Char.isDigit).isEmpty then none
  else
    match t.dropWhile Char.isDigit with
    | '.' :: t2 =>
      if (t2.takeWhile Char.isDigit).isEmpty then none
      else if ((t2.dropWhile Char.isDigit).takeWhile isPySpace).isEmpty then none
      else if isPrefixStr attrWord ((t2.dropWhile Char.isDigit).dropWhile isPySpace) then
        headerTail t t2 (((t2.dropWhile Char.isDigit).dropWhile isPySpace).drop attrWord.length)
      else none
    | _ => none

/-- Fueled scanner of `re.finditer` for the heading pattern: scan every
position left to right, attempting the pattern only where MULTILINE `^`
matches (position 0, or just after a newline), and resume after the end of
each non-overlapping match.  A match always ends right before a newline or
at the end of the text, so the position after it is never a line start.
Each hit is returned as `(group 1, group 2, suffix)` where `suffix` is the
whole text from the match's start position.  The fuel only bounds the scan
so that the recursion is structural; every step consumes at least one
character (`headerMatchAt_rest_lt`), so any fuel exceeding the text length
gives the scan's true result. -/
def scanHeadersAux : Nat → Str → Bool → List (Str × Str × Str)
  | 0, _, _ => []
  | Nat.succ fuel, t, atLineStart =>
    if atLineStart then
      match headerMatchAt t with
      | some (g1, g2, r) => (g1, g2, t) :: scanHeadersAux fuel r false
      | none =>
        match t with
        | [] => []
        | c :: rest => scanHeadersAux fuel rest (c = '\n')
    else
      match t with
      | [] => []
      | c :: rest => scanHeadersAux fuel rest (c = '\n')

/-- `attribute_header_pattern.finditer(text)` of `parse_attribute_blocks`,
with sufficient fuel. -/
def scanHeaders (t : Str) (atLineStart : Bool) : List (Str × Str × Str) :=
  scanHeadersAux (t.length + 1) t atLineStart

/-- Block construction of `parse_attribute_blocks`: every anchor's block
runs from its start position to the next anchor's start position
(`text[start_pos:end_pos]`); the last anchor's block is the 2000-character
window `text[start_pos : start_pos + 2000]`.  With anchors represented by
their text suffixes, the distance between consecutive start positions is
the difference of the suffix lengths. -/
def buildBlocks : List (Str × Str × Str) → List (Str × Str × Str)
  | [] => []
  | (g1, g2, t) :: rest =>
    (g1, g2,
      match rest with
      | (_, _, t2) :: _ => t.take (t.length - t2.length)
      | [] => t.take 2000) :: buildBlocks rest

/-- `MSADAPDFParser.parse_attribute_blocks`: find all heading anchors,
slice the text into one block per anchor, and build one record per block
(the heading label is trimmed before the display-name fallback, as in
`match.group(2).strip()`). -/
def parse_attribute_blocks (text : Str) (source_pdf : Str) : List ADAttribute :=
  (buildBlocks (scanHeaders text true)).map
    (fun m => parseBlock m.2.2 m.1 (stripStr m.2.1) source_pdf)

/-- Key selection of `parse_multiple_pdfs`:
`key = attr.schema_id_guid or attr.ldap_display_name` followed by
`if key:` — a falsy (`None` or empty) GUID falls back to the display name,
and a falsy resulting key means the record is dropped. -/
def recKey (a : ADAttribute) : Option Str :=
  match (if truthyO a.schema_id_guid then a.schema_id_guid else a.ldap_display_name) with
  | some s => if s.isEmpty then none else some s
  | none => none

/-- Key canonicalization of `parse_multiple_pdfs`: a truthy key of exactly
36 characters containing a hyphen is lowercased (ASCII model of
`str.lower`). -/
def canonKey (k : Str) : Str :=
  if !k.isEmpty && k.length = 36 && k.contains '-' then k.map Char.toLower
  else k

/-- The canonical key a record is consolidated under, when it has one. -/
def recCanonKey (a : ADAttribute) : Option Str := (recKey a).map canonKey

/-- Python dict insertion for the consolidated table (`all_attributes[key]
= attr`): overwrite in place when the key exists, else append. -/
def dictInsert (table : List (Str × ADAttribute)) (k : Str) (v : ADAttribute) :
    List (Str × ADAttribute) :=
  if table.any (fun p => p.1 = k) then
    table.map (fun p => if p.1 = k then (k, v) else p)
  else table ++ [(k, v)]

/-- Python dict lookup on the consolidated table. -/
def dictGet (table : List (Str × ADAttribute)) (k : Str) : Option ADAttribute :=
  (table.find? (fun p => p.1 = k)).map (fun p => p.2)

/-- The per-record step of the consolidation loop in
`parse_multiple_pdfs`: key the record, canonicalize, insert; keyless
records are skipped. -/
def consolidStep (table : List (Str × ADAttribute)) (a : ADAttribute) :
    List (Str × ADAttribute) :=
  match recKey a with
  | some k => dictInsert table (canonKey k) a
  | none => table

/-- The consolidation of `parse_multiple_pdfs` over the per-document record
streams, in document order. -/
def consolidate (docs : List (List ADAttribute)) : List (Str × ADAttribute) :=
  docs.foldl (fun table attrs => attrs.foldl consolidStep table) []

/-- `MSADAPDFParser.parse_multiple_pdfs`, modelled over the list of
successfully read documents as `(file name, extracted text)` pairs
(missing files are skipped and unreadable files contribute empty text —
and hence no records — before this point). -/
def parse_multiple_pdfs (docs : List (Str × Str)) : List (Str × ADAttribute) :=
  consolidate (docs.map (fun d => parse_attribute_blocks d.2 d.1))

/-- JSON-representable values appearing in the enhanced schema export. -/
inductive JVal where
  | str : Str → JVal
  | int : Int → JVal
  | bool : Bool → JVal
  | null : JVal
deriving DecidableEq, Repr

/-- Digit-sequence part of Python `int(str)`: ASCII digits with single
underscores allowed only between digits. -/
def pyDigitsAux : Str → Nat → Option Nat
  | [], acc => some acc
  | '_' :: c :: r, acc =>
    if c.isDigit then pyDigitsAux r (acc * 10 + (c.toNat - 48)) else none
  | ['_'], _ => none
  | c :: r, acc =>
    if c.isDigit then pyDigitsAux r (acc * 10 + (c.toNat - 48)) else none

/-- Nonempty digit sequence of Python `int(str)`. -/
def pyDigits : Str → Option Nat
  | [] => none
  | c :: r => if c.isDigit then pyDigitsAux r (c.toNat - 48) else none

/-- Python `int(str)` (ASCII model): surrounding whitespace stripped,
optional sign, then a digit sequence; `none` models `ValueError`. -/
def pyInt (s : Str) : Option Int :=
  match stripStr s with
  | '+' :: r => (pyDigits r).map (fun n => (n : Int))
  | '-' :: r => (pyDigits r).map (fun n => -(n : Int))
  | r => (pyDigits r).map (fun n => (n : Int))

/-- Exported-field names of `export_to_enhanced_json`. -/
def ldapDisplayNameKey : Str := "ldapDisplayName".toList

def cnKey : Str := "cn".toList

def attributeIdKey : Str := "attributeId".toList

def attributeSyntaxKey : Str := "attributeSyntax".toList

def omSyntaxKey : Str := "omSyntax".toList

def isSingleValuedKey : Str := "isSingleValued".toList

def systemOnlyKey : Str := "systemOnly".toList

def searchFlagsKey : Str := "searchFlags".toList

def rangeLowerKey : Str := "rangeLower".toList

def rangeUpperKey : Str := "rangeUpper".toList

def attributeSecurityGuidKey : Str := "attributeSecurityGuid".toList

def mapiIDKey : Str := "mapiID".toList

def isMemberOfPASKey : Str := "isMemberOfPartialAttributeSet".toList

def systemFlagsKey : Str := "systemFlags".toList

def schemaFlagsExKey : Str := "schemaFlagsEx".toList

/-- The boolean-coerced field names of `export_to_enhanced_json`. -/
def boolFieldKeys : List Str := [isSingleValuedKey, systemOnlyKey, isMemberOfPASKey]

/-- The integer-coerced field names of `export_to_enhanced_json`. -/
def intFieldKeys : List Str := [omSyntaxKey, rangeLowerKey, rangeUpperKey, mapiIDKey]

/-- Coercion applied to one non-null, non-empty field value in the export
loop: the three tri-state fields map the literals `TRUE` / `FALSE` to
booleans, the four numeric fields attempt an integer parse with the
original string kept on failure, and every other field passes through. -/
def coerceField (name : Str) (v : Str) : JVal :=
  if name ∈ boolFieldKeys then
    if v = "TRUE".toList then JVal.bool true
    else if v = "FALSE".toList then JVal.bool false
    else JVal.str v
  else if name ∈ intFieldKeys then
    match pyInt v with
    | some n => JVal.int n
    | none => JVal.str v
  else JVal.str v

/-- The `field_mapping` dict of `export_to_enhanced_json`, in insertion
order. -/
def fieldMapping (a : ADAttribute) : List (Str × Option Str) :=
  [(cnKey, a.cn),
   (attributeIdKey, a.attribute_id),
   (attributeSyntaxKey, a.attributeSyntaxVal),
   (omSyntaxKey, a.omSyntaxVal),
   (isSingleValuedKey, a.is_single_valued),
   (systemOnlyKey, a.system_only),
   (searchFlagsKey, a.search_flags),
   (rangeLowerKey, a.range_lower),
   (rangeUpperKey, a.range_upper),
   (attributeSecurityGuidKey, a.attribute_security_guid),
   (mapiIDKey, a.mapi_id),
   (isMemberOfPASKey, a.isMemberOfPartialAttributeSet),
   (systemFlagsKey, a.system_flags),
   (schemaFlagsExKey, a.schema_flags_ex)]

/-- One exported entry of `export_to_enhanced_json`: `ldapDisplayName` is
written unconditionally (a missing display name becomes JSON `null`), then
each mapped field is appended when its value is non-null and non-empty,
coerced per `coerceField`. -/
def exportEntry (a : ADAttribute) : List (Str × JVal) :=
  (ldapDisplayNameKey,
    match a.ldap_display_name with
    | some s => JVal.str s
    | none => JVal.null) ::
  (fieldMapping a).foldl
    (fun e p =>
      match p.2 with
      | some s => if s.isEmpty then e else e ++ [(p.1, coerceField p.1 s)]
      | none => e) []

/-- `MSADAPDFParser.export_to_enhanced_json`, up to serialization: the
persisted schema object maps each consolidated key to its exported entry
(the `sort_keys=True` JSON dump permutes keys but neither adds, removes nor
changes any entry, so membership-level claims are unaffected). -/
def export_to_enhanced_json (table : List (Str × ADAttribute)) :
    List (Str × List (Str × JVal)) :=
  table.map (fun p => (p.1, exportEntry p.2))

/-- Association-list lookup modelling both Python `dict.get` on parsed JSON
objects and membership of a field in an exported entry. -/
def assocFind (k : Str) (l : List (Str × JVal)) : Option JVal :=
  (l.find? (fun p => p.1 = k)).map (fun p => p.2)

/-- `normalize_guid` of cli.py: strip surrounding whitespace, then remove
one pair of wrapping braces when the string both starts with the opening
brace and ends with the closing brace. -/
def normalize_guid (g : Str) : Str :=
  match stripStr g with
  | s =>
    if s.head? = some '\x7b' && s.getLast? = some '\x7d' then (s.drop 1).dropLast
    else s

/-- The name chosen by `load_schema_mappings` for one enhanced-schema
entry: `attr_data.get("ldapDisplayName", attr_data.get("cn",
f"Unknown-{guid}"))` — note that a key present with JSON `null` yields
`null`, not the fallback. -/
def pickName (guid : Str) (entry : List (Str × JVal)) : JVal :=
  match assocFind ldapDisplayNameKey entry with
  | some v => v
  | none =>
    match assocFind cnKey entry with
    | some v => v
    | none => JVal.str ("Unknown-".toList ++ guid)

/-- `load_schema_mappings` of cli.py: convert the parsed enhanced JSON
object into the simple key-to-display-name mapping. -/
def load_schema_mappings (d : List (Str × List (Str × JVal))) : List (Str × JVal) :=
  d.map (fun p => (p.1, pickName p.1 p.2))

/-- String-valued dict lookup (for `SchemaLookup.guid_to_name.get`). -/
def assocFindS (k : Str) (l : List (Str × Str)) : Option Str :=
  (l.find? (fun p => p.1 = k)).map (fun p => p.2)

/-- String-valued dict insertion (overwrite in place or append), the dict
semantics underlying the reverse-mapping comprehension. -/
def dictInsertS (l : List (Str × Str)) (k v : Str) : List (Str × Str) :=
  if l.any (fun p => p.1 = k) then
    l.map (fun p => if p.1 = k then (k, v) else p)
  else l ++ [(k, v)]

/-- `SchemaLookup.name_to_guid`: the dict comprehension
`{v: k for k, v in self.guid_to_name.items()}` — iterate the mapping in
order, inserting name-to-key pairs; a repeated name is overwritten by the
later key. -/
def name_to_guid (m : List (Str × Str)) : List (Str × Str) :=
  m.foldl (fun acc p => dictInsertS acc p.2 p.1) []

/-- `SchemaLookup.lookup_by_guid`: normalize the argument, then look it up
in the key-to-name mapping. -/
def lookup_by_guid (m : List (Str × Str)) (guid : Str) : Option Str :=
  assocFindS (normalize_guid guid) m

/-- `SchemaLookup.lookup_by_name`: look the name up in the lazily built
reverse mapping. -/
def lookup_by_name (m : List (Str × Str)) (name : Str) : Option Str :=
  assocFindS name (name_to_guid m)

/-- The rest of a successful `headerTail` is no longer than its input. -/
theorem headerTail_rest_le {t t2 t5 g1 g2 r : Str}
    (h : headerTail t t2 t5 = some (g1, g2, r)) : r.length ≤ t5.length := by
  unfold headerTail at h
  split at h
  · simp at h
  · split at h
    case _ c u' ht6 =>
      cases h
      have h1 : (t5.dropWhile isPySpace).length ≤ t5.length :=
        (List.dropWhile_suffix _).length_le
      rw [ht6] at h1
      simp only [List.length_drop]
      omega
    case _ ht6 =>
      split at h
      · simp at h
      · simp at h
      · cases h
        simp only [List.length_drop]
        omega

/-- The rest of a successful heading match is strictly shorter than the
text the attempt started from. -/
theorem headerMatchAt_rest_lt {t g1 g2 r : Str}
    (h : headerMatchAt t = some (g1, g2, r)) : r.length < t.length := by
  unfold headerMatchAt at h
  split at h
  · simp at h
  · split at h
    case _ t2 heq =>
      have ht1 : (t.dropWhile Char.isDigit).length ≤ t.length :=
        (List.dropWhile_suffix _).length_le
      rw [heq] at ht1
      simp only [List.length_cons] at ht1
      split at h
      · simp at h
      · split at h
        · simp at h
        · split at h
          · have hr := headerTail_rest_le h
            have h3 : (t2.dropWhile Char.isDigit).length ≤ t2.length :=
              (List.dropWhile_suffix _).length_le
            have h4 : ((t2.dropWhile Char.isDigit).dropWhile isPySpace).length ≤ (t2.dropWhile Char.isDigit).length :=
              (List.dropWhile_suffix _).length_le
            have h5 : ((((t2.dropWhile Char.isDigit).dropWhile isPySpace).drop attrWord.length)).length ≤ ((t2.dropWhile Char.isDigit).dropWhile isPySpace).length := by
              simp [List.length_drop]
            omega
          · simp at h
    case _ => simp at h

/-
Whitespace lemmas: how trimming interacts with whitespace-run
normalization.  These drive the claims about cleaned-up field values.
-/

theorem trimL_idem (s : Str) : trimL (trimL s) = trimL s := by
  unfold trimL
  exact List.dropWhile_idempotent _ _

theorem trimR_nil_iff {s : Str} : trimR s = [] ↔ ∀ x ∈ s, isPySpace x :=
  List.rdropWhile_eq_nil_iff

theorem trimL_nil_iff {s : Str} : trimL s = [] ↔ ∀ x ∈ s, isPySpace x :=
  List.dropWhile_eq_nil_iff

theorem trimR_cons (a : Char) (w : Str) :
    trimR (a :: w) =
      if (trimR w).isEmpty then (if isPySpace a then [] else [a])
      else a :: trimR w := by
  induction w using List.reverseRecOn with
  | nil =>
    simp only [trimR, List.rdropWhile_nil, List.isEmpty_nil, if_true]
    simpa [trimR] using List.rdropWhile_singleton (p := isPySpace) a
  | append_singleton w' x ih =>
    by_cases hx : isPySpace x
    · have h1 : trimR (a :: (w' ++ [x])) = trimR (a :: w') := by
        have := List.rdropWhile_concat_pos (p := isPySpace) (l := a :: w') x hx
        simpa [trimR] using this
      have h2 : trimR (w' ++ [x]) = trimR w' := by
        have := List.rdropWhile_concat_pos (p := isPySpace) (l := w') x hx
        simpa [trimR] using this
      rw [h1, h2, ih]
    · have h1 : trimR (a :: (w' ++ [x])) = a :: (w' ++ [x]) := by
        have := List.rdropWhile_concat_neg (p := isPySpace) (l := a :: w') x hx
        simpa [trimR] using this
      have h2 : trimR (w' ++ [x]) = w' ++ [x] := by
        have := List.rdropWhile_concat_neg (p := isPySpace) (l := w') x hx
        simpa [trimR] using this
      rw [h1, h2]
      simp

@[simp] theorem collapseSp_nil : collapseSp [] = [] := rfl

theorem collapseSp_two (a b : Char) (r : Str) :
    collapseSp (a :: b :: r) =
      if a = ' ' && b = ' ' then collapseSp (b :: r) else a :: collapseSp (b :: r) := rfl

theorem normWs_nil : normWs [] = [] := rfl

theorem not_space_ne {c : Char} (h : isPySpace c = false) : c ≠ ' ' := by
  intro he
  rw [he] at h
  exact absurd h (by decide)

theorem normWs_cons_ws {c : Char} (r : Str) (h : isPySpace c = true) :
    normWs (c :: r) = ' ' :: normWs (trimL r) := by
  unfold normWs
  rw [List.map_cons, show mapWsChar c = ' ' from by simp [mapWsChar, h]]
  induction r with
  | nil => simp [collapseSp, trimL]
  | cons b r' ih =>
    by_cases hb : isPySpace b
    · rw [List.map_cons, show mapWsChar b = ' ' from by simp [mapWsChar, hb],
        collapseSp_two, if_pos (by simp),
        show trimL (b :: r') = trimL r' from by simp [trimL, List.dropWhile_cons, hb]]
      exact ih
    · have hb' : isPySpace b = false := by simpa using hb
      rw [List.map_cons, show mapWsChar b = b from by simp [mapWsChar, hb'],
        collapseSp_two, if_neg (by simp [not_space_ne hb']),
        show trimL (b :: r') = b :: r' from by simp [trimL, List.dropWhile_cons, hb']]
      simp [mapWsChar, hb']

theorem normWs_cons_not {c : Char} (r : Str) (h : isPySpace c = false) :
    normWs (c :: r) = c :: normWs r := by
  unfold normWs
  rw [List.map_cons, show mapWsChar c = c from by simp [mapWsChar, h]]
  cases r with
  | nil => rfl
  | cons b r' =>
    rw [List.map_cons, collapseSp_two, if_neg (by simp [not_space_ne h])]

theorem normWs_allWs {s : Str} (h : ∀ x ∈ s, isPySpace x) :
    normWs s = if s.isEmpty then [] else [' '] := by
  cases s with
  | nil => simp [normWs]
  | cons c r =>
    have hc : isPySpace c = true := h c (by simp)
    rw [normWs_cons_ws r hc]
    have : trimL r = [] := trimL_nil_iff.mpr (fun x hx => h x (by simp [hx]))
    rw [this]
    simp [normWs]

theorem normWs_ne_nil {s : Str} (h : s ≠ []) : normWs s ≠ [] := by
  cases s with
  | nil => exact absurd rfl h
  | cons c r =>
    by_cases hc : isPySpace c
    · rw [normWs_cons_ws r hc]; simp
    · rw [normWs_cons_not r (by simpa using hc)]; simp

theorem trimL_head_not : ∀ {s : Str} {d : Char} {t : Str},
    trimL s = d :: t → isPySpace d = false := by
  intro s
  induction s with
  | nil => intro d t h; simp [trimL] at h
  | cons c r ih =>
    intro d t h
    by_cases hc : isPySpace c
    · exact ih (by simpa [trimL, List.dropWhile_cons, hc] using h)
    · have hc' : isPySpace c = false := by simpa using hc
      simp [trimL, List.dropWhile_cons, hc'] at h
      rw [← h.1]
      exact hc'

theorem trimL_trimR_comm (s : Str) : trimL (trimR s) = trimR (trimL s) := by
  induction s with
  | nil => simp [trimL, trimR, List.rdropWhile]
  | cons a w ih =>
    by_cases ha : isPySpace a
    · have hL : trimL (a :: w) = trimL w := by simp [trimL, List.dropWhile_cons, ha]
      rw [trimR_cons, hL]
      by_cases hw : (trimR w).isEmpty
      · simp [hw, ha]
        have : trimL w = [] := by
          refine trimL_nil_iff.mpr ?_
          exact fun x hx => trimR_nil_iff.mp (by simpa using hw) x hx
        rw [this]
        simp [trimR, List.rdropWhile_nil, trimL]
      · simp [hw]
        have hL2 : trimL (a :: trimR w) = trimL (trimR w) := by
          simp [trimL, List.dropWhile_cons, ha]
        rw [hL2, ih]
    · have ha' : isPySpace a = false := by simpa using ha
      have hL : trimL (a :: w) = a :: w := by simp [trimL, List.dropWhile_cons, ha']
      rw [trimR_cons, hL]
      by_cases hw : (trimR w).isEmpty
      · simp [hw, ha']
        rw [trimR_cons, hw]
        simp [ha', trimL, List.dropWhile_cons]
      · simp [hw]
        rw [trimR_cons, if_neg (by simpa using hw)]
        simp [trimL, List.dropWhile_cons, ha']

theorem norm_trimL (s : Str) : normWs (trimL s) = trimL (normWs s) := by
  cases s with
  | nil => simp [trimL, normWs]
  | cons c r =>
    by_cases hc : isPySpace c
    · have hL : trimL (c :: r) = trimL r := by simp [trimL, List.dropWhile_cons, hc]
      rw [hL, normWs_cons_ws r hc]
      have h2 : trimL (' ' :: normWs (trimL r)) = trimL (normWs (trimL r)) := by
        simp [trimL, List.dropWhile_cons, isPySpace]
      rw [h2]
      cases htl : trimL r with
      | nil => simp [normWs, trimL, List.dropWhile_nil]
      | cons d t =>
        have hd : isPySpace d = false := trimL_head_not htl
        rw [normWs_cons_not t hd]
        simp [trimL, List.dropWhile_cons, hd]
    · have hc' : isPySpace c = false := by simpa using hc
      have hL : trimL (c :: r) = c :: r := by simp [trimL, List.dropWhile_cons, hc']
      rw [hL, normWs_cons_not r hc']
      have : trimL (c :: normWs r) = c :: normWs r := by
        simp [trimL, List.dropWhile_cons, hc']
      rw [this]

theorem norm_trimR (s : Str) : normWs (trimR s) = trimR (normWs s) := by
  suffices H : ∀ n (s : Str), s.length ≤ n → normWs (trimR s) = trimR (normWs s) by
    exact H s.length s le_rfl
  intro n
  induction n with
  | zero =>
    intro s hs
    have hnil : s = [] := by
      cases s with
      | nil => rfl
      | cons a w => simp at hs
    subst hnil
    simp [trimR, normWs, List.rdropWhile_nil]
  | succ n ih =>
    intro s hs
    cases s with
    | nil => simp [trimR, normWs, List.rdropWhile_nil]
    | cons a w =>
      have hw : w.length ≤ n := by
        simp only [List.length_cons] at hs
        omega
      by_cases ha : isPySpace a
      · rw [trimR_cons]
        by_cases hrw : (trimR w).isEmpty
        · have hallw : ∀ x ∈ w, isPySpace x := trimR_nil_iff.mp (by simpa using hrw)
          have htlw : trimL w = [] := trimL_nil_iff.mpr hallw
          rw [if_pos hrw, if_pos ha, normWs_cons_ws w ha, htlw]
          simp only [normWs]
          rw [trimR_cons]
          simp [trimR, List.rdropWhile_nil, isPySpace]
        · rw [if_neg hrw, normWs_cons_ws (trimR w) ha, normWs_cons_ws w ha]
          have htl : trimL w ≠ [] := by
            intro hnil
            exact hrw (by
              simp only [List.isEmpty_iff]
              exact trimR_nil_iff.mpr (trimL_nil_iff.mp hnil))
          obtain ⟨d, t, hdt⟩ : ∃ d t, trimL w = d :: t := by
            cases hx : trimL w with
            | nil => exact absurd hx htl
            | cons d t => exact ⟨d, t, rfl⟩
          have hd : isPySpace d = false := trimL_head_not hdt
          have hXne : trimR (normWs (trimL w)) ≠ [] := by
            rw [hdt, normWs_cons_not t hd]
            intro hcon
            have hdws := trimR_nil_iff.mp hcon d (by simp)
            rw [hd] at hdws
            exact absurd hdws (by simp)
          rw [trimR_cons, if_neg (by simpa using hXne)]
          have hmain : normWs (trimL (trimR w)) = trimR (normWs (trimL w)) := by
            rw [trimL_trimR_comm w]
            exact ih (trimL w) (le_trans (List.dropWhile_suffix _).length_le hw)
          rw [hmain]
      · have ha' : isPySpace a = false := by simpa using ha
        rw [trimR_cons]
        by_cases hrw : (trimR w).isEmpty
        · have hallw : ∀ x ∈ w, isPySpace x := trimR_nil_iff.mp (by simpa using hrw)
          rw [if_pos hrw, if_neg ha, normWs_cons_not w ha']
          cases w with
          | nil =>
            simp [normWs, trimR, List.rdropWhile_singleton, ha', collapseSp, mapWsChar]
          | cons b v =>
            have hnw : normWs (b :: v) = [' '] := by
              rw [normWs_allWs hallw]
              rfl
            rw [hnw, trimR_cons]
            have h1 : trimR [' '] = [] := by
              simp [trimR, List.rdropWhile_singleton, isPySpace]
            rw [h1]
            simp [ha', normWs, collapseSp, mapWsChar]
        · rw [if_neg hrw, normWs_cons_not (trimR w) ha', normWs_cons_not w ha']
          have hih := ih w hw
          have hne : trimR (normWs w) ≠ [] := by
            rw [← hih]
            exact normWs_ne_nil (by simpa [List.isEmpty_iff] using hrw)
          rw [trimR_cons, if_neg (by simpa using hne), hih]

theorem strip_norm (s : Str) : stripStr (normWs s) = normWs (stripStr s) := by
  unfold stripStr
  rw [← norm_trimL s, norm_trimR (trimL s)]

theorem strip_idem (s : Str) : stripStr (stripStr s) = stripStr s := by
  unfold stripStr
  rw [trimL_trimR_comm (trimL s), trimL_idem]
  show trimR (trimR (trimL s)) = trimR (trimL s)
  unfold trimR
  exact List.rdropWhile_idempotent _ _

theorem strip_trimL (s : Str) : stripStr (trimL s) = stripStr s := by
  unfold stripStr
  rw [trimL_idem]

/-
Consolidation lemmas: dict semantics of the table and the last-write-wins
characterization of the consolidation fold.
-/

theorem getLast?_cons_of_ne_nil {α : Type} (a : α) {xs : List α} (h : xs ≠ []) :
    (a :: xs).getLast? = xs.getLast? := by
  cases xs with
  | nil => exact absurd rfl h
  | cons b bs => exact List.getLast?_cons_cons

theorem find?_update_self (t : List (Str × ADAttribute)) (k : Str) (v : ADAttribute) :
    (t.map (fun p => if p.1 = k then (k, v) else p)).find? (fun p => p.1 = k) =
      if t.any (fun p => p.1 = k) then some (k, v) else none := by
  induction t with
  | nil => rfl
  | cons p rest ih =>
    by_cases hp : p.1 = k
    · rw [List.map_cons, if_pos hp, List.find?_cons_of_pos _ (by simp), List.any_cons]
      have hc : (decide (p.1 = k) || rest.any fun q => decide (q.1 = k)) = true := by
        simp [hp]
      simp only [hc, if_true]
    · simp only [List.map_cons, if_neg hp, List.any_cons]
      rw [List.find?_cons_of_neg _ (by simpa using hp), ih]
      have hd : decide (p.1 = k) = false := by simp [hp]
      simp only [hd, Bool.false_or]

theorem find?_update_other (t : List (Str × ADAttribute)) (k k' : Str) (v : ADAttribute)
    (h : k' ≠ k) :
    (t.map (fun p => if p.1 = k then (k, v) else p)).find? (fun p => p.1 = k') =
      t.find? (fun p => p.1 = k') := by
  induction t with
  | nil => rfl
  | cons p rest ih =>
    by_cases hp : p.1 = k
    · rw [List.map_cons, if_pos hp, List.find?_cons_of_neg _ (by simp [Ne.symm h]),
        List.find?_cons_of_neg _ (by simp [hp, Ne.symm h]), ih]
    · rw [List.map_cons, if_neg hp]
      by_cases hp' : p.1 = k'
      · rw [List.find?_cons_of_pos _ (by simpa using hp'),
          List.find?_cons_of_pos _ (by simpa using hp')]
      · rw [List.find?_cons_of_neg _ (by simpa using hp'),
          List.find?_cons_of_neg _ (by simpa using hp'), ih]

theorem dictGet_dictInsert (t : List (Str × ADAttribute)) (k k' : Str) (v : ADAttribute) :
    dictGet (dictInsert t k v) k' = if k' = k then some v else dictGet t k' := by
  unfold dictGet dictInsert
  by_cases han : t.any (fun p => p.1 = k)
  · rw [if_pos han]
    by_cases hk : k' = k
    · subst hk
      rw [find?_update_self, if_pos han]
      simp
    · rw [find?_update_other t k k' v hk, if_neg hk]
  · rw [if_neg han, List.find?_append]
    by_cases hk : k' = k
    · subst hk
      have hnone : t.find? (fun p => p.1 = k') = none := by
        rw [List.find?_eq_none]
        intro x hx
        simp only [decide_eq_true_eq]
        intro hxk
        exact han (List.any_eq_true.mpr ⟨x, hx, by simpa using hxk⟩)
      rw [hnone]
      simp [List.find?_cons]
    · cases hx : t.find? (fun p => p.1 = k') with
      | none =>
        rw [List.find?_cons_of_neg _ (by simp only [decide_eq_true_eq]; exact fun hc => hk hc.symm)]
        simp [hk]
      | some q =>
        simp [hk]

theorem dictGet_consolidStep (t : List (Str × ADAttribute)) (a : ADAttribute) (k : Str) :
    dictGet (consolidStep t a) k =
      if recCanonKey a = some k then some a else dictGet t k := by
  unfold consolidStep recCanonKey
  cases hrk : recKey a with
  | none => simp
  | some k0 =>
    simp only [Option.map]
    rw [dictGet_dictInsert]
    by_cases hk : k = canonKey k0
    · rw [if_pos hk, if_pos (by rw [hk])]
    · rw [if_neg hk, if_neg (by intro hc; exact hk (by injection hc with h; exact h.symm))]

theorem dictGet_foldl_consolidStep (l : List ADAttribute) :
    ∀ (t : List (Str × ADAttribute)) (k : Str),
      dictGet (l.foldl consolidStep t) k =
        match (l.filter (fun a => recCanonKey a = some k)).getLast? with
        | some r => some r
        | none => dictGet t k := by
  induction l with
  | nil => intro t k; simp
  | cons a l ih =>
    intro t k
    rw [List.foldl_cons, ih]
    by_cases hlast : ((l.filter (fun a => recCanonKey a = some k)).getLast?).isSome
    · obtain ⟨r, hr⟩ := Option.isSome_iff_exists.mp hlast
      rw [hr]
      have hne : l.filter (fun a => recCanonKey a = some k) ≠ [] := by
        intro hnil
        rw [hnil] at hr
        simp at hr
      have hstep : ((a :: l).filter (fun a => recCanonKey a = some k)).getLast? = some r := by
        rw [List.filter_cons]
        split
        · rw [getLast?_cons_of_ne_nil _ hne, hr]
        · exact hr
      rw [hstep]
    · have hnone : (l.filter (fun a => recCanonKey a = some k)).getLast? = none := by
        cases hx : (l.filter (fun a => recCanonKey a = some k)).getLast? with
        | none => rfl
        | some r => rw [hx] at hlast; simp at hlast
      have hfl : l.filter (fun a => recCanonKey a = some k) = [] := by
        cases hx : l.filter (fun a => recCanonKey a = some k) with
        | nil => rfl
        | cons b bs =>
          rw [hx] at hnone
          have hsome : ((b :: bs).getLast?).isSome := by
            rw [List.getLast?_isSome]
            simp
          rw [hnone] at hsome
          simp at hsome
      rw [hnone, dictGet_consolidStep, List.filter_cons, hfl]
      by_cases hak : recCanonKey a = some k
      · simp [hak]
      · simp [hak]

theorem dictGet_consolidate (docs : List (List ADAttribute)) (k : Str) :
    dictGet (consolidate docs) k =
      (docs.flatten.filter (fun a => recCanonKey a = some k)).getLast? := by
  unfold consolidate
  rw [← List.foldl_flatten consolidStep [] docs, dictGet_foldl_consolidStep]
  cases hx : (docs.flatten.filter (fun a => recCanonKey a = some k)).getLast? with
  | none => rfl
  | some r => rfl

theorem toNat_ofNat_valid (n : Nat) (h : n.isValidChar) : (Char.ofNat n).toNat = n := by
  unfold Char.ofNat Char.ofNatAux
  rw [dif_pos h]
  rfl

theorem toLower_toLower (c : Char) : c.toLower.toLower = c.toLower := by
  simp only [Char.toLower]
  by_cases h : c.toNat ≥ 65 ∧ c.toNat ≤ 90
  · rw [if_pos h]
    have hv : Nat.isValidChar (c.toNat + 32) := by
      left
      omega
    rw [if_neg]
    rw [toNat_ofNat_valid _ hv]
    omega
  · rw [if_neg h, if_neg h]

/-- Claim C7 — Key canonicalization is idempotent: applying the
Consolidator's canonicalization step (lowercase exactly when the key is 36
characters long and contains a hyphen, otherwise unchanged) twice gives the
same result as applying it once, and canonicalizing an already-lowercased
36-character hyphenated key returns it unchanged. -/
theorem c7_canonKey_idempotent (k : Str) :
    canonKey (canonKey k) = canonKey k ∧
      (k.length = 36 → '-' ∈ k → (∀ c ∈ k, c.toLower = c) → canonKey k = k) := by
  constructor
  · by_cases hcond : (!k.isEmpty && k.length = 36 && k.contains '-') = true
    · have h1 : canonKey k = k.map Char.toLower := by
        unfold canonKey
        rw [if_pos hcond]
      rw [h1]
      have hne : k ≠ [] := by
        intro hnil
        subst hnil
        simp at hcond
      have hlen : k.length = 36 := by
        simp only [Bool.and_eq_true, decide_eq_true_eq] at hcond
        exact hcond.1.2
      have hmem : '-' ∈ k := by
        simp only [Bool.and_eq_true] at hcond
        exact List.elem_iff.mp hcond.2
      have hcond2 : (!(k.map Char.toLower).isEmpty &&
          (k.map Char.toLower).length = 36 && (k.map Char.toLower).contains '-') = true := by
        simp only [Bool.and_eq_true, decide_eq_true_eq]
        refine ⟨⟨?_, by simpa using hlen⟩, ?_⟩
        · simp [List.isEmpty_iff, hne]
        · refine List.elem_iff.mpr ?_
          refine List.mem_map.mpr ⟨'-', hmem, ?_⟩
          decide
      unfold canonKey
      rw [if_pos hcond2, List.map_map]
      refine List.map_congr_left ?_
      intro c _
      exact toLower_toLower c
    · have h1 : canonKey k = k := by
        unfold canonKey
        rw [if_neg hcond]
      rw [h1, h1]
  · intro hlen hmem hlow
    unfold canonKey
    by_cases hcond : (!k.isEmpty && k.length = 36 && k.contains '-') = true
    · rw [if_pos hcond]
      have : k.map Char.toLower = k.map id := List.map_congr_left (fun c hc => hlow c hc)
      rw [this, List.map_id]
    · rw [if_neg hcond]

/-- Witness for C7 at a concrete already-lowercase hyphenated GUID. -/
theorem c7_witness :
    canonKey (canonKey "12345678-1234-5678-9012-123456789abc".toList) =
        canonKey "12345678-1234-5678-9012-123456789abc".toList ∧
      canonKey "12345678-1234-5678-9012-123456789abc".toList =
        "12345678-1234-5678-9012-123456789abc".toList := by
  have h := c7_canonKey_idempotent "12345678-1234-5678-9012-123456789abc".toList
  exact ⟨h.1, h.2 (by decide) (by decide) (by decide)⟩

/-- Claim C4 — Last-write-wins consolidation: for an ordered document
sequence in which an earlier document and a later document each produce a
record under the same canonical key (the later document's record being the
final record carrying that key), the consolidated table maps the key to the
later document's record exactly — a full overwrite, with no field taken
from the earlier record. -/
theorem c4_last_write_wins (pre mid post : List (Str × Str)) (dA dB : Str × Str)
    (k : Str) (rA rB : ADAttribute)
    (hA : rA ∈ parse_attribute_blocks dA.2 dA.1) (hAk : recCanonKey rA = some k)
    (hB : rB ∈ parse_attribute_blocks dB.2 dB.1) (hBk : recCanonKey rB = some k)
    (hlast : ((parse_attribute_blocks dB.2 dB.1 ++
        (post.map (fun d => parse_attribute_blocks d.2 d.1)).flatten).filter
        (fun a => recCanonKey a = some k)).getLast? = some rB) :
    dictGet (parse_multiple_pdfs (pre ++ dA :: mid ++ dB :: post)) k = some rB := by
  unfold parse_multiple_pdfs
  rw [dictGet_consolidate]
  have hmap : (pre ++ dA :: mid ++ dB :: post).map
      (fun d => parse_attribute_blocks d.2 d.1) =
      (pre.map (fun d => parse_attribute_blocks d.2 d.1) ++
        parse_attribute_blocks dA.2 dA.1 ::
          mid.map (fun d => parse_attribute_blocks d.2 d.1)) ++
        parse_attribute_blocks dB.2 dB.1 ::
          post.map (fun d => parse_attribute_blocks d.2 d.1) := by
    simp
  rw [hmap, List.flatten_append, List.flatten_cons, List.filter_append]
  have hR : ((parse_attribute_blocks dB.2 dB.1 ++
      (post.map (fun d => parse_attribute_blocks d.2 d.1)).flatten).filter
      (fun a => recCanonKey a = some k)) ≠ [] := by
    intro hnil
    rw [hnil] at hlast
    simp at hlast
  rw [List.getLast?_append_of_ne_nil _ hR]
  exact hlast

/-- Witness for C4: two concrete one-record documents under the shared key
`fooBar`; the table holds exactly the second document's record. -/
theorem c4_witness :
    dictGet (parse_multiple_pdfs
        [("a.pdf".toList, "1.1 Attribute fooBar\n".toList),
         ("b.pdf".toList, ("1.1 Attribute fooBar\n\u00A0cn: Z\n").toList)])
      "fooBar".toList =
      some { cn := some "Z".toList
             ldap_display_name := some "fooBar".toList
             source_section := some "1.1".toList
             source_pdf := some "b.pdf".toList } := by
  exact c4_last_write_wins [] [] []
    ("a.pdf".toList, "1.1 Attribute fooBar\n".toList)
    ("b.pdf".toList, ("1.1 Attribute fooBar\n\u00A0cn: Z\n").toList)
    "fooBar".toList
    { ldap_display_name := some "fooBar".toList
      source_section := some "1.1".toList
      source_pdf := some "a.pdf".toList }
    { cn := some "Z".toList
      ldap_display_name := some "fooBar".toList
      source_section := some "1.1".toList
      source_pdf := some "b.pdf".toList }
    (by decide) (by decide) (by decide) (by decide) (by decide)

/-- Claim C5 — Key selection: a record is keyed by `schema_id_guid` when
that field is present (with a non-empty value, the spec's notion of
presence: empty and absent coincide); otherwise by `ldap_display_name`; a
record with neither is excluded from the table by the consolidation step
without any error; and every key of the consolidated table arises from some
input record by this rule (canonicalized). -/
theorem c5_key_selection :
    (∀ a : ADAttribute, truthyO a.schema_id_guid = true →
        recKey a = a.schema_id_guid) ∧
    (∀ a : ADAttribute, truthyO a.schema_id_guid = false →
        truthyO a.ldap_display_name = true → recKey a = a.ldap_display_name) ∧
    (∀ (a : ADAttribute) (t : List (Str × ADAttribute)),
        truthyO a.schema_id_guid = false → truthyO a.ldap_display_name = false →
        consolidStep t a = t) ∧
    (∀ (docs : List (Str × Str)) (k : Str),
        k ∈ (parse_multiple_pdfs docs).map (fun p => p.1) →
        ∃ a, a ∈ (docs.map (fun d => parse_attribute_blocks d.2 d.1)).flatten ∧
          recCanonKey a = some k) := by
  refine ⟨?_, ?_, ?_, ?_⟩
  · intro a h
    unfold recKey
    rw [if_pos h]
    cases hg : a.schema_id_guid with
    | none => rfl
    | some s =>
      rw [hg] at h
      simp only [truthyO] at h
      simp [show s.isEmpty = false from by simpa using h]
  · intro a h1 h2
    unfold recKey
    rw [if_neg (by simp [h1])]
    cases hg : a.ldap_display_name with
    | none => rfl
    | some s =>
      rw [hg] at h2
      simp only [truthyO] at h2
      simp [show s.isEmpty = false from by simpa using h2]
  · intro a t h1 h2
    unfold consolidStep
    have hrk : recKey a = none := by
      unfold recKey
      rw [if_neg (by simp [h1])]
      cases hg : a.ldap_display_name with
      | none => simp
      | some s =>
        rw [hg] at h2
        simp only [truthyO] at h2
        simp [show s.isEmpty = true from by simpa using h2]
    rw [hrk]
  · intro docs k hk
    obtain ⟨p, hp, hpk⟩ := List.mem_map.mp hk
    have hfind : ((parse_multiple_pdfs docs).find? (fun q => q.1 = k)).isSome := by
      rw [List.find?_isSome]
      exact ⟨p, hp, by simpa using hpk⟩
    have hget : dictGet (parse_multiple_pdfs docs) k ≠ none := by
      unfold dictGet
      intro hc
      obtain ⟨q, hq⟩ := Option.isSome_iff_exists.mp hfind
      rw [hq] at hc
      simp at hc
    unfold parse_multiple_pdfs at hget
    rw [dictGet_consolidate] at hget
    cases hfl : (docs.map (fun d => parse_attribute_blocks d.2 d.1)).flatten.filter
        (fun a => recCanonKey a = some k) with
    | nil => rw [hfl] at hget; simp at hget
    | cons b bs =>
      have hb : b ∈ (docs.map (fun d => parse_attribute_blocks d.2 d.1)).flatten.filter
          (fun a => recCanonKey a = some k) := by
        rw [hfl]
        simp
      obtain ⟨hmem, hpred⟩ := List.mem_filter.mp hb
      exact ⟨b, hmem, by simpa using hpred⟩

/-- Witness for C5 at concrete records and a concrete two-document batch. -/
theorem c5_witness :
    recKey { schema_id_guid := some "g1".toList, ldap_display_name := some "n".toList } =
        some "g1".toList ∧
    recKey { ldap_display_name := some "n".toList } = some "n".toList ∧
    consolidStep [] { cn := some "x".toList } = [] ∧
    (∃ a, a ∈ ([(("p.pdf".toList : Str), ("1.1 Attribute foo\n".toList : Str))].map
          (fun d => parse_attribute_blocks d.2 d.1)).flatten ∧
        recCanonKey a = some "foo".toList) := by
  refine ⟨?_, ?_, ?_, ?_⟩
  · exact c5_key_selection.1 _ (by decide)
  · exact c5_key_selection.2.1 _ (by decide) (by decide)
  · exact c5_key_selection.2.2.1 _ [] (by decide) (by decide)
  · exact c5_key_selection.2.2.2 [("p.pdf".toList, "1.1 Attribute foo\n".toList)]
      "foo".toList (by decide)

/-
Field-search lemmas: how the per-field pattern search behaves on a block
split into lines.
-/

theorem splitLines_no_newline (s : Str) : ∀ l ∈ splitLines s, '\n' ∉ l := by
  induction s with
  | nil =>
    intro l hl
    simp [splitLines] at hl
    simp [hl]
  | cons c r ih =>
    intro l hl
    by_cases hc : c = '\n'
    · rw [splitLines, if_pos hc] at hl
      rcases List.mem_cons.mp hl with h | h
      · simp [h]
      · exact ih l h
    · rw [splitLines, if_neg hc] at hl
      cases hsp : splitLines r with
      | nil =>
        rw [hsp] at hl
        simp at hl
        subst hl
        intro hmem
        simp at hmem
        exact hc hmem.symm
      | cons l0 ls =>
        rw [hsp] at hl
        rcases List.mem_cons.mp hl with h | h
        · subst h
          intro hmem
          rcases List.mem_cons.mp hmem with h' | h'
          · exact hc h'.symm
          · exact ih l0 (by rw [hsp]; simp) h'
        · exact ih l (by rw [hsp]; simp [h])

theorem dropLabelCI_decomp :
    ∀ (label t u : Str), dropLabelCI label t = some u →
      ∃ w, t = w ++ u ∧ w.length = label.length := by
  intro label
  induction label with
  | nil =>
    intro t u h
    simp [dropLabelCI] at h
    exact ⟨[], by simp [h], rfl⟩
  | cons p ps ih =>
    intro t u h
    cases t with
    | nil => simp [dropLabelCI] at h
    | cons c cs =>
      rw [dropLabelCI] at h
      split at h
      · obtain ⟨w, hw, hlen⟩ := ih cs u h
        exact ⟨c :: w, by simp [hw], by simp [hlen]⟩
      · exact absurd h (by simp)

theorem tryFieldLine_none_of_not_label (label line : Str) (rest : List Str)
    (h : isLabelLine label line = false) :
    tryFieldLine label line rest = none := by
  cases htr : tryFieldLine label line rest with
  | none => rfl
  | some pr =>
    exfalso
    unfold tryFieldLine at htr
    split at htr
    · rename_i t1
      split at htr
      · rename_i R hlab
        simp [isLabelLine, hlab] at h
      · exact absurd htr (by simp)
    · rename_i hne
      exact absurd htr (by simp)

theorem searchFieldLines_append_none (label : Str) (pre ls : List Str)
    (h : ∀ l ∈ pre, isLabelLine label l = false) :
    searchFieldLines label (pre ++ ls) = searchFieldLines label ls := by
  induction pre with
  | nil => rfl
  | cons l0 pre' ih =>
    rw [List.cons_append, searchFieldLines,
      tryFieldLine_none_of_not_label label l0 _ (h l0 (by simp))]
    exact ih (fun l hl => h l (by simp [hl]))

theorem takeWhile_append_all {p : Char → Bool} {l1 : Str} (l2 : Str)
    (h : ∀ c ∈ l1, p c = true) :
    (l1 ++ l2).takeWhile p = l1 ++ l2.takeWhile p := by
  induction l1 with
  | nil => rfl
  | cons c r ih =>
    rw [List.cons_append, List.takeWhile_cons, h c (by simp), ih (fun x hx => h x (by simp [hx]))]
    simp

theorem takeWhile_append_stop {p : Char → Bool} {l1 : Str} (l2 : Str)
    (h : l1.dropWhile p ≠ []) :
    (l1 ++ l2).takeWhile p = l1.takeWhile p := by
  induction l1 with
  | nil => exact absurd rfl h
  | cons c r ih =>
    by_cases hc : p c
    · rw [List.cons_append, List.takeWhile_cons, hc, List.takeWhile_cons, hc,
        ih (by simpa [List.dropWhile_cons, hc] using h)]
    · have hc' : p c = false := by simpa using hc
      rw [List.cons_append, List.takeWhile_cons, hc', List.takeWhile_cons, hc']
      simp

theorem dropWhile_append_stop {p : Char → Bool} {l1 : Str} (l2 : Str)
    (h : l1.dropWhile p ≠ []) :
    (l1 ++ l2).dropWhile p = l1.dropWhile p ++ l2 := by
  induction l1 with
  | nil => exact absurd rfl h
  | cons c r ih =>
    by_cases hc : p c
    · rw [List.cons_append]
      rw [List.dropWhile_cons, hc] at h
      rw [List.dropWhile_cons, List.dropWhile_cons, hc]
      simp only [if_true]
      exact ih (by simpa using h)
    · have hc' : p c = false := by simpa using hc
      rw [List.cons_append, List.dropWhile_cons, hc', List.dropWhile_cons, hc']
      simp

/-- Computation rule for `fieldTailMatch` when the tail has non-whitespace
content. -/
theorem fieldTailMatch_cons (T : Str) (d : Char) (u' : Str)
    (h : T.dropWhile isPySpace = d :: u') :
    fieldTailMatch T = some ((d :: u').takeWhile (fun x => x ≠ '\n'),
      T.takeWhile isPySpace ++ (d :: u').takeWhile (fun x => x ≠ '\n')) := by
  unfold fieldTailMatch
  rw [h]

/-- A field pattern attempt succeeds on a label line whose value part has
non-whitespace content, capturing the value with leading whitespace dropped;
the whole matched text (`group 0`) is exactly the line. -/
theorem tryFieldLine_match (label t1 R : Str) (rest : List Str)
    (hnl : '\n' ∉ ('\u00A0' :: t1 : Str))
    (hlab : dropLabelCI label t1 = some (':' :: R))
    (hval : trimL R ≠ []) :
    tryFieldLine label ('\u00A0' :: t1) rest = some (trimL R, '\u00A0' :: t1) := by
  obtain ⟨w, hw, hwlen⟩ := dropLabelCI_decomp label t1 (':' :: R) hlab
  have hnlR : '\n' ∉ R := by
    intro hmem
    exact hnl (by rw [hw]; simp [hmem])
  obtain ⟨d, u, hdu⟩ : ∃ d u, trimL R = d :: u := by
    cases hx : trimL R with
    | nil => exact absurd hx hval
    | cons d u => exact ⟨d, u, rfl⟩
  have hsubR : ∀ c, c ∈ trimL R → c ∈ R := fun c hc =>
    (List.dropWhile_suffix isPySpace).subset hc
  have htail : ∀ X : Str, X = [] ∨ (∃ X', X = '\n' :: X') →
      fieldTailMatch (R ++ X) = some (trimL R, R) := by
    intro X hX
    have hdw : (R ++ X).dropWhile isPySpace = d :: (u ++ X) := by
      rw [dropWhile_append_stop X hval]
      show trimL R ++ X = d :: (u ++ X)
      rw [hdu, List.cons_append]
    rw [fieldTailMatch_cons (R ++ X) d (u ++ X) hdw]
    have hcap : (d :: (u ++ X)).takeWhile (fun x => x ≠ '\n') = trimL R := by
      rw [show (d :: (u ++ X) : Str) = (d :: u) ++ X from by rw [List.cons_append]]
      rw [takeWhile_append_all X (by
        intro c hc
        simp only [decide_eq_true_eq]
        intro he
        subst he
        exact hnlR (hsubR '\n' (by rw [hdu]; exact hc)))]
      rcases hX with hX | ⟨X', hX⟩
      · rw [hX, hdu]
        simp
      · rw [hX, List.takeWhile_cons]
        simp [hdu]
    have hcons : (R ++ X).takeWhile isPySpace = R.takeWhile isPySpace := by
      exact takeWhile_append_stop X hval
    rw [hcap, hcons]
    rw [show R.takeWhile isPySpace ++ trimL R = R from by
      show R.takeWhile isPySpace ++ R.dropWhile isPySpace = R
      exact List.takeWhile_append_dropWhile isPySpace R]
  unfold tryFieldLine
  have hun : fieldTailMatch (unsplit (R :: rest)) = some (trimL R, R) := by
    cases rest with
    | nil =>
      have h0 := htail [] (Or.inl rfl)
      rw [List.append_nil] at h0
      rw [show unsplit [R] = R from rfl]
      exact h0
    | cons r0 rs =>
      have h1 : unsplit (R :: r0 :: rs) = R ++ '\n' :: unsplit (r0 :: rs) := rfl
      rw [h1]
      exact htail ('\n' :: unsplit (r0 :: rs)) (Or.inr ⟨unsplit (r0 :: rs), rfl⟩)
  simp only [hlab, hun]
  have hline : ('\u00A0' :: t1 : Str) = ('\u00A0' :: w ++ [':']) ++ R := by
    rw [hw]
    simp
  have hlen : ('\u00A0' :: t1 : Str).length - R.length = ('\u00A0' :: w ++ [':']).length := by
    rw [hline]
    simp only [List.length_append, List.length_cons]
    omega
  rw [hlen, show ('\u00A0' :: t1 : Str) = ('\u00A0' :: w ++ [':']) ++ R from hline]
  rw [List.take_left]

theorem searchFieldLines_none (label : Str) (ls : List Str)
    (h : ∀ l ∈ ls, isLabelLine label l = false) :
    searchFieldLines label ls = none := by
  induction ls with
  | nil => rfl
  | cons l0 ls' ih =>
    rw [searchFieldLines, tryFieldLine_none_of_not_label label l0 _ (h l0 (by simp))]
    exact ih (fun l hl => h l (by simp [hl]))

/-- Claim C2 — Per-field extraction: on a well-formed block whose first
label-carrying line for the field consists of the U+00A0 marker, the label
(case-insensitively), a colon and a value with non-whitespace content, the
Field Extractor's per-field extraction recovers exactly that value with
whitespace runs collapsed to single spaces and the result trimmed; and on a
block in which the field's label occurs on no line, the per-field
extraction produces no value at all (`none` — the field stays absent from
the record, never an empty string). -/
theorem c2_field_extraction (label block block' : Str) (pre post : List Str)
    (t1 R : Str)
    (hsp : splitLines block = pre ++ ('\u00A0' :: t1) :: post)
    (hpre : ∀ l ∈ pre, isLabelLine label l = false)
    (hlab : dropLabelCI label t1 = some (':' :: R))
    (hval : stripStr R ≠ [])
    (hnolabel : ∀ l ∈ splitLines block', isLabelLine label l = false) :
    extractPlain label block = some (stripStr (normWs R)) ∧
    extractPlain label block' = none ∧ extractFlag label block' = none := by
  have hvt : trimL R ≠ [] := by
    intro hnil
    exact hval (by
      unfold stripStr
      rw [hnil]
      simp [trimR, List.rdropWhile_nil])
  refine ⟨?_, ?_, ?_⟩
  · unfold extractPlain searchField
    rw [hsp, searchFieldLines_append_none label pre _ hpre, searchFieldLines]
    have hnl : '\n' ∉ ('\u00A0' :: t1 : Str) :=
      splitLines_no_newline block ('\u00A0' :: t1) (by rw [hsp]; simp)
    rw [tryFieldLine_match label t1 R post hnl hlab hvt]
    simp only [Option.map]
    rw [strip_trimL R, strip_norm (stripStr R), strip_idem R, ← strip_norm R]
  · unfold extractPlain searchField
    rw [searchFieldLines_none label _ hnolabel]
    rfl
  · unfold extractFlag searchField
    rw [searchFieldLines_none label _ hnolabel]
    rfl

/-- Witness for C2 at a concrete block: the label line value `  a  b `
extracts as `a b`; a label-free block extracts nothing. -/
theorem c2_witness :
    extractPlain cnLabel "\u00A0cn:  a  b \nend".toList = some "a b".toList ∧
    extractPlain cnLabel "no label here".toList = none ∧
    extractFlag cnLabel "no label here".toList = none := by
  have h := c2_field_extraction cnLabel "\u00A0cn:  a  b \nend".toList
    "no label here".toList [] ["end".toList] "cn:  a  b ".toList "  a  b ".toList
    (by decide) (by decide) (by decide) (by decide) (by decide)
  exact ⟨h.1, h.2.1, h.2.2⟩

/-
Continuation-scan lemmas for the multiline bit-flag repair.
-/

theorem isPrefixStr_self_append (l t : Str) : isPrefixStr l (l ++ t) = true := by
  induction l with
  | nil => simp [isPrefixStr]
  | cons c r ih => simp [isPrefixStr, ih]

theorem containsStr_of_parts (l : Str) :
    ∀ (s t hay : Str), hay = s ++ l ++ t → containsStr l hay = true := by
  intro s
  induction s with
  | nil =>
    intro t hay h
    subst h
    rw [List.nil_append]
    cases hx : (l ++ t : Str) with
    | nil =>
      have hl : l = [] := by
        cases l with
        | nil => rfl
        | cons a b => simp at hx
      subst hl
      rfl
    | cons c rest =>
      rw [containsStr, ← hx, isPrefixStr_self_append]
      simp
  | cons c s' ih =>
    intro t hay h
    subst h
    rw [show (c :: s' : Str) ++ l ++ t = c :: (s' ++ l ++ t) from by simp, containsStr]
    rw [ih t (s' ++ l ++ t) rfl]
    simp

theorem containsStr_strip_self (l : Str) : containsStr (stripStr l) l = true := by
  obtain ⟨t, ht⟩ := List.rdropWhile_prefix isPySpace (trimL l)
  have hdecomp : l = l.takeWhile isPySpace ++ stripStr l ++ t := by
    rw [List.append_assoc]
    rw [show (stripStr l ++ t : Str) = trimL l from ht]
    exact (List.takeWhile_append_dropWhile isPySpace l).symm
  exact containsStr_of_parts (stripStr l) (l.takeWhile isPySpace) t l hdecomp

theorem replaceNbsp2_id (body : Str)
    (h : containsStr ['\u00A0', '\u00A0'] body = false) :
    replaceNbsp2 body = body := by
  suffices H : ∀ n (b : Str), b.length ≤ n →
      containsStr ['\u00A0', '\u00A0'] b = false → replaceNbsp2 b = b by
    exact H body.length body le_rfl h
  intro n
  induction n with
  | zero =>
    intro b hb _
    cases b with
    | nil => rfl
    | cons x y => simp at hb
  | succ n ih =>
    intro b hb hc
    cases b with
    | nil => rfl
    | cons a rest =>
      cases rest with
      | nil => rfl
      | cons b' r =>
        rw [containsStr] at hc
        rcases Bool.or_eq_false_iff.mp hc with ⟨h1, h2⟩
        have hne : (a = '\u00A0' && b' = '\u00A0') = false := by
          simp only [isPrefixStr] at h1
          by_cases ha : a = '\u00A0' <;> by_cases hb2 : b' = '\u00A0' <;> simp_all
        rw [replaceNbsp2, hne]
        simp only [Bool.false_eq_true, if_false]
        rw [ih (b' :: r) (by simp at hb ⊢; omega) h2]

theorem scanCont_cons (needle line : Str) (rest : List Str) (found : Bool) (acc : Str) :
    scanCont needle (line :: rest) found acc =
      if containsStr needle line then scanCont needle rest true acc
      else if found then
        if isPrefixStr ['\u00A0', '\u00A0'] line &&
            (containsStr "FLAG_".toList line || !(stripStr line).isEmpty) then
          scanCont needle rest found
            (if (stripStr (replaceNbsp2 line)).isEmpty then acc
             else acc ++ ' ' :: stripStr (replaceNbsp2 line))
        else acc
      else scanCont needle rest found acc := rfl

theorem scanCont_skip (needle : Str) (pre : List Str) (ls : List Str) (acc : Str)
    (h : ∀ l ∈ pre, containsStr needle l = false) :
    scanCont needle (pre ++ ls) false acc = scanCont needle ls false acc := by
  induction pre with
  | nil => rfl
  | cons l0 pre' ih =>
    rw [List.cons_append, scanCont_cons, h l0 (by simp)]
    simp only [Bool.false_eq_true, if_false]
    exact ih (fun l hl => h l (by simp [hl]))

theorem scanCont_found_start (needle line : Str) (ls : List Str) (b : Bool) (acc : Str)
    (h : containsStr needle line = true) :
    scanCont needle (line :: ls) b acc = scanCont needle ls true acc := by
  rw [scanCont_cons, h]
  simp

theorem trimL_marker (b : Str) : trimL ('\u00A0' :: '\u00A0' :: b) = trimL b := by
  simp [trimL, List.dropWhile_cons, isPySpace]

theorem stripStr_marker (b : Str) : stripStr ('\u00A0' :: '\u00A0' :: b) = stripStr b := by
  unfold stripStr
  rw [trimL_marker]

theorem scanCont_conts (needle : Str) (bodies : List Str) :
    ∀ (ls : List Str) (acc : Str),
      (∀ b ∈ bodies, stripStr b ≠ [] ∧ containsStr ['\u00A0', '\u00A0'] b = false) →
      (∀ b ∈ bodies, containsStr needle ('\u00A0' :: '\u00A0' :: b) = false) →
      scanCont needle ((bodies.map (fun b => '\u00A0' :: '\u00A0' :: b)) ++ ls) true acc =
        scanCont needle ls true (acc ++ (bodies.map (fun b => ' ' :: stripStr b)).flatten) := by
  induction bodies with
  | nil => intro ls acc _ _; simp
  | cons b0 bs ih =>
    intro ls acc hb hn
    rw [List.map_cons, List.cons_append, scanCont_cons, hn b0 (by simp)]
    simp only [Bool.false_eq_true, if_false, if_true]
    have hstrip : stripStr ('\u00A0' :: '\u00A0' :: b0) = stripStr b0 := stripStr_marker b0
    have hsne : (stripStr b0).isEmpty = false := by
      simpa [List.isEmpty_iff] using (hb b0 (by simp)).1
    have hcond : (isPrefixStr ['\u00A0', '\u00A0'] ('\u00A0' :: '\u00A0' :: b0) &&
        (containsStr "FLAG_".toList ('\u00A0' :: '\u00A0' :: b0) ||
          !(stripStr ('\u00A0' :: '\u00A0' :: b0)).isEmpty)) = true := by
      rw [hstrip, hsne]
      simp [isPrefixStr]
    rw [hcond]
    simp only [if_true]
    have hrepl : replaceNbsp2 ('\u00A0' :: '\u00A0' :: b0) = b0 := by
      rw [replaceNbsp2]
      simp only [show (('\u00A0' : Char) = '\u00A0' && ('\u00A0' : Char) = '\u00A0') = true from by decide,
        if_true]
      exact replaceNbsp2_id b0 (hb b0 (by simp)).2
    rw [hrepl, hsne]
    simp only [Bool.false_eq_true, if_false]
    rw [ih ls (acc ++ ' ' :: stripStr b0) (fun b hbm => hb b (by simp [hbm]))
      (fun b hbm => hn b (by simp [hbm]))]
    rw [List.map_cons, List.flatten_cons]
    simp

theorem scanCont_stop (needle stop : Str) (after : List Str) (acc : Str)
    (h1 : containsStr needle stop = false)
    (h2 : isPrefixStr ['\u00A0', '\u00A0'] stop = false) :
    scanCont needle (stop :: after) true acc = acc := by
  rw [scanCont_cons, h1, h2]
  simp

/-- Claim C3 (amended) — Multiline bit-flag repair: for a block in which one
of the two bit-flag fields is captured on a line whose trimmed text occurs
on no other relevant line of the block, with a first-line value ending in
`|`, followed by zero or more continuation lines each consisting of the
double-indent marker and content that has non-whitespace characters and no
further double-indent marker, and then a first line not beginning with that
marker: the extracted value equals the first line's value concatenated with
each continuation line's content (indent stripped, trimmed) joined by
single spaces, whitespace-normalized; the scan stops at the first
non-continuation line, and lines after it contribute nothing. -/
theorem c3_flag_continuations (label block : Str) (pre : List Str) (t1 R : Str)
    (bodies : List Str) (stop : Str) (after : List Str)
    (hfield : label = systemFlagsLabel ∨ label = schemaFlagsExLabel)
    (hsp : splitLines block =
      pre ++ (('\u00A0' :: t1) ::
        ((bodies.map (fun b => '\u00A0' :: '\u00A0' :: b)) ++ stop :: after)))
    (hpre : ∀ l ∈ pre, isLabelLine label l = false)
    (hlab : dropLabelCI label t1 = some (':' :: R))
    (hpipe : (stripStr R).getLast? = some '|')
    (hbodies : ∀ b ∈ bodies, stripStr b ≠ [] ∧ containsStr ['\u00A0', '\u00A0'] b = false)
    (hneedle : ∀ l ∈ pre, containsStr (stripStr ('\u00A0' :: t1)) l = false)
    (hneedle2 : ∀ b ∈ bodies,
      containsStr (stripStr ('\u00A0' :: t1)) ('\u00A0' :: '\u00A0' :: b) = false)
    (hstop1 : containsStr (stripStr ('\u00A0' :: t1)) stop = false)
    (hstop2 : isPrefixStr ['\u00A0', '\u00A0'] stop = false) :
    extractFlag label block =
      some (stripStr (normWs (stripStr R ++
        (bodies.map (fun b => ' ' :: stripStr b)).flatten))) := by
  have hvR : stripStr R ≠ [] := by
    intro hnil
    rw [hnil] at hpipe
    simp at hpipe
  have hvt : trimL R ≠ [] := by
    intro hnil
    exact hvR (by
      unfold stripStr
      rw [hnil]
      simp [trimR, List.rdropWhile_nil])
  unfold extractFlag searchField
  rw [hsp]
  rw [searchFieldLines_append_none label pre _ hpre]
  rw [searchFieldLines]
  have hnl : '\n' ∉ ('\u00A0' :: t1 : Str) :=
    splitLines_no_newline block ('\u00A0' :: t1) (by rw [hsp]; simp)
  rw [tryFieldLine_match label t1 R _ hnl hlab hvt]
  simp only [Option.map]
  rw [strip_trimL R]
  rw [if_pos hpipe]
  rw [scanCont_skip _ pre _ _ hneedle,
    scanCont_found_start _ _ _ _ _ (containsStr_strip_self ('\u00A0' :: t1)),
    scanCont_conts _ bodies _ _ hbodies hneedle2,
    scanCont_stop _ stop after _ hstop1 hstop2]

/-- Witness for C3 at a concrete block with one continuation line. -/
theorem c3_witness :
    extractFlag systemFlagsLabel
      "1.1 Attribute x\n\u00A0systemFlags: FLAG_A |\n\u00A0\u00A0FLAG_B\nEND\ntail".toList =
      some "FLAG_A | FLAG_B".toList := by
  have h := c3_flag_continuations systemFlagsLabel
    "1.1 Attribute x\n\u00A0systemFlags: FLAG_A |\n\u00A0\u00A0FLAG_B\nEND\ntail".toList
    ["1.1 Attribute x".toList] "systemFlags: FLAG_A |".toList " FLAG_A |".toList
    ["FLAG_B".toList] "END".toList ["tail".toList]
    (Or.inl rfl) (by decide) (by decide) (by decide) (by decide)
    (by decide) (by decide) (by decide) (by decide) (by decide)
  exact h

/-- Counterexample to C3 as frozen: in this block the second line after the
captured `systemFlags` line is a continuation line by the claim's
definition (it begins with the double-indent marker), but its content is
whitespace-only, so the code stops there: the claim predicts
`FLAG_A | FLAG_B` (the whitespace-only continuation contributing nothing
and `FLAG_B` appended), while the code extracts `FLAG_A |`. -/
theorem c3_counterexample :
    extractFlag systemFlagsLabel
        "1.1 Attribute x\n\u00A0systemFlags: FLAG_A |\n\u00A0\u00A0\n\u00A0\u00A0FLAG_B\nEND".toList =
      some "FLAG_A |".toList ∧
    stripStr (normWs (("FLAG_A |".toList ++ (' ' :: ([] : Str))) ++ ' ' :: "FLAG_B".toList)) =
      "FLAG_A | FLAG_B".toList ∧
    some "FLAG_A |".toList ≠ some "FLAG_A | FLAG_B".toList := by
  refine ⟨by decide, by decide, by decide⟩

/-
Segmentation lemmas: the scanner's stored suffixes and the block builder.
-/

theorem headerTail_rest_suffix {t t2 t5 g1 g2 r : Str}
    (h : headerTail t t2 t5 = some (g1, g2, r)) : r <:+ t5 := by
  unfold headerTail at h
  split at h
  · simp at h
  · split at h
    case _ c u' ht6 =>
      cases h
      exact (List.drop_suffix _ _).trans (ht6 ▸ List.dropWhile_suffix isPySpace)
    case _ ht6 =>
      split at h
      · simp at h
      · simp at h
      · cases h
        exact List.drop_suffix _ _

theorem headerMatchAt_rest_suffix {t g1 g2 r : Str}
    (h : headerMatchAt t = some (g1, g2, r)) : r <:+ t := by
  unfold headerMatchAt at h
  split at h
  · simp at h
  · split at h
    case _ t2 heq =>
      split at h
      · simp at h
      · split at h
        · simp at h
        · split at h
          · have ht2 : t2 <:+ t := by
              have h1 : t2 <:+ ('.' :: t2) := List.suffix_cons '.' t2
              rw [← heq] at h1
              exact h1.trans (List.dropWhile_suffix _)
            have h5 : (((t2.dropWhile Char.isDigit).dropWhile isPySpace).drop attrWord.length) <:+ t :=
              (List.drop_suffix _ _).trans ((List.dropWhile_suffix _).trans
                ((List.dropWhile_suffix _).trans ht2))
            exact (headerTail_rest_suffix h).trans h5
          · simp at h
    case _ => simp at h

theorem scanHeadersAux_succ (fuel : Nat) (t : Str) (b : Bool) :
    scanHeadersAux (fuel + 1) t b =
      if b then
        match headerMatchAt t with
        | some (g1, g2, r) => (g1, g2, t) :: scanHeadersAux fuel r false
        | none =>
          match t with
          | [] => []
          | c :: rest => scanHeadersAux fuel rest (c = '\n')
      else
        match t with
        | [] => []
        | c :: rest => scanHeadersAux fuel rest (c = '\n') := rfl

theorem scanHeadersAux_suffix :
    ∀ (fuel : Nat) (t : Str) (b : Bool) (m : Str × Str × Str),
      m ∈ scanHeadersAux fuel t b → m.2.2 <:+ t := by
  intro fuel
  induction fuel with
  | zero => intro t b m hm; simp [scanHeadersAux] at hm
  | succ fuel ih =>
    intro t b m hm
    rw [scanHeadersAux_succ] at hm
    by_cases hb : b
    · rw [if_pos hb] at hm
      cases hh : headerMatchAt t with
      | some x =>
        obtain ⟨g1, g2, r⟩ := x
        rw [hh] at hm
        rcases List.mem_cons.mp hm with h | h
        · subst h
          exact List.suffix_refl t
        · exact (ih r false m h).trans (headerMatchAt_rest_suffix hh)
      | none =>
        rw [hh] at hm
        cases t with
        | nil => simp at hm
        | cons c rest =>
          exact (ih rest (c = '\n') m hm).trans (List.suffix_cons c rest)
    · rw [if_neg hb] at hm
      cases t with
      | nil => simp at hm
      | cons c rest =>
        exact (ih rest (c = '\n') m hm).trans (List.suffix_cons c rest)

theorem scanHeadersAux_chain :
    ∀ (fuel : Nat) (t : Str) (b : Bool),
      List.Chain' (fun m m' : Str × Str × Str => m'.2.2.length < m.2.2.length)
        (scanHeadersAux fuel t b) := by
  intro fuel
  induction fuel with
  | zero => intro t b; simp [scanHeadersAux]
  | succ fuel ih =>
    intro t b
    rw [scanHeadersAux_succ]
    by_cases hb : b
    · rw [if_pos hb]
      cases hh : headerMatchAt t with
      | some x =>
        obtain ⟨g1, g2, r⟩ := x
        refine List.chain'_cons'.mpr ⟨?_, ih r false⟩
        intro m hm
        have hmem : m ∈ scanHeadersAux fuel r false := by
          cases hx : scanHeadersAux fuel r false with
          | nil => rw [hx] at hm; simp at hm
          | cons a l => rw [hx] at hm; simp at hm; simp [hx, hm]
        have h1 : m.2.2 <:+ r := scanHeadersAux_suffix fuel r false m hmem
        have h2 : r.length < t.length := headerMatchAt_rest_lt hh
        have h3 := h1.length_le
        simpa using lt_of_le_of_lt h3 h2
      | none =>
        cases t with
        | nil => simp
        | cons c rest => exact ih rest (c = '\n')
    · rw [if_neg hb]
      cases t with
      | nil => simp
      | cons c rest => exact ih rest (c = '\n')

theorem buildBlocks_length (l : List (Str × Str × Str)) :
    (buildBlocks l).length = l.length := by
  induction l with
  | nil => rfl
  | cons m rest ih =>
    obtain ⟨g1, g2, t⟩ := m
    cases rest with
    | nil => rfl
    | cons m2 rest2 =>
      obtain ⟨b1, b2, b3⟩ := m2
      have hred : buildBlocks ((g1, g2, t) :: (b1, b2, b3) :: rest2) =
          (g1, g2, t.take (t.length - b3.length)) ::
            buildBlocks ((b1, b2, b3) :: rest2) := rfl
      rw [hred]
      simp [ih]

theorem buildBlocks_get_mid :
    ∀ (l : List (Str × Str × Str)) (i : Nat) (g1 g2 t g1' g2' t' : Str),
      l[i]? = some (g1, g2, t) → l[i + 1]? = some (g1', g2', t') →
      (buildBlocks l)[i]? = some (g1, g2, t.take (t.length - t'.length)) := by
  intro l
  induction l with
  | nil => intro i g1 g2 t g1' g2' t' h1 _; simp at h1
  | cons m rest ih =>
    intro i g1 g2 t g1' g2' t' h1 h2
    obtain ⟨a1, a2, a3⟩ := m
    cases i with
    | zero =>
      cases rest with
      | nil => simp at h2
      | cons m2 rest2 =>
        obtain ⟨b1, b2, b3⟩ := m2
        have h1e : (a1, a2, a3) = (g1, g2, t) := by simpa using h1
        have h2e : (b1, b2, b3) = (g1', g2', t') := by simpa using h2
        cases h1e
        cases h2e
        rfl
    | succ j =>
      simp only [List.getElem?_cons_succ] at h1 h2
      cases rest with
      | nil => simp at h1
      | cons m2 rest2 =>
        obtain ⟨b1, b2, b3⟩ := m2
        have hred : buildBlocks ((a1, a2, a3) :: (b1, b2, b3) :: rest2) =
            (a1, a2, a3.take (a3.length - b3.length)) ::
              buildBlocks ((b1, b2, b3) :: rest2) := rfl
        rw [hred]
        simp only [List.getElem?_cons_succ]
        exact ih j g1 g2 t g1' g2' t' h1 h2

theorem buildBlocks_get_last :
    ∀ (l : List (Str × Str × Str)) (g1 g2 t : Str),
      l[l.length - 1]? = some (g1, g2, t) →
      (buildBlocks l)[l.length - 1]? = some (g1, g2, t.take 2000) := by
  intro l
  induction l with
  | nil => intro g1 g2 t h; simp at h
  | cons m rest ih =>
    intro g1 g2 t h
    obtain ⟨a1, a2, a3⟩ := m
    cases rest with
    | nil =>
      have he : (a1, a2, a3) = (g1, g2, t) := by simpa using h
      cases he
      rfl
    | cons m2 rest2 =>
      obtain ⟨b1, b2, b3⟩ := m2
      have hlen : ((a1, a2, a3) :: (b1, b2, b3) :: rest2).length - 1 =
          ((b1, b2, b3) :: rest2).length - 1 + 1 := by
        simp
      rw [hlen] at h ⊢
      simp only [List.getElem?_cons_succ] at h
      have hred : buildBlocks ((a1, a2, a3) :: (b1, b2, b3) :: rest2) =
          (a1, a2, a3.take (a3.length - b3.length)) ::
            buildBlocks ((b1, b2, b3) :: rest2) := rfl
      rw [hred]
      simp only [List.getElem?_cons_succ]
      exact ih g1 g2 t h

theorem suffix_drop {l t : Str} (h : l <:+ t) : t.drop (t.length - l.length) = l := by
  obtain ⟨s, rfl⟩ := h
  rw [List.length_append]
  rw [show s.length + l.length - l.length = s.length from by omega]
  exact List.drop_left s l

/-- C6: `parse_attribute_blocks` yields one record per heading anchor in
document order; for each anchor except the last, the block is the slice of
the text from that anchor's start position (`text.length - t.length` for
anchor suffix `t`) to the next anchor's start position; the last anchor's
block is the 2000-character window from its start (truncated at end of
text); a text with no anchors yields the empty record list. -/
theorem c6_block_segmentation (text source_pdf : Str) :
    (parse_attribute_blocks text source_pdf).length =
      (scanHeaders text true).length ∧
    (∀ i g1 g2 t g1' g2' t',
      (scanHeaders text true)[i]? = some (g1, g2, t) →
      (scanHeaders text true)[i + 1]? = some (g1', g2', t') →
      (buildBlocks (scanHeaders text true))[i]? =
        some (g1, g2,
          (text.drop (text.length - t.length)).take
            ((text.length - t'.length) - (text.length - t.length)))) ∧
    (∀ g1 g2 t,
      (scanHeaders text true)[(scanHeaders text true).length - 1]? =
        some (g1, g2, t) →
      (buildBlocks (scanHeaders text true))[(scanHeaders text true).length - 1]? =
        some (g1, g2, (text.drop (text.length - t.length)).take 2000)) ∧
    (scanHeaders text true = [] → parse_attribute_blocks text source_pdf = []) := by
  refine ⟨?_, ?_, ?_, ?_⟩
  · unfold parse_attribute_blocks
    rw [List.length_map, buildBlocks_length]
  · intro i g1 g2 t g1' g2' t' h1 h2
    obtain ⟨hlt1, he1⟩ := List.getElem?_eq_some.mp h1
    obtain ⟨hlt2, he2⟩ := List.getElem?_eq_some.mp h2
    have hmem : ((g1, g2, t) : Str × Str × Str) ∈ scanHeaders text true :=
      he1 ▸ List.getElem_mem _
    have hmem' : ((g1', g2', t') : Str × Str × Str) ∈ scanHeaders text true :=
      he2 ▸ List.getElem_mem _
    have hsuf : t <:+ text :=
      scanHeadersAux_suffix (text.length + 1) text true _ hmem
    have hsuf' : t' <:+ text :=
      scanHeadersAux_suffix (text.length + 1) text true _ hmem'
    have hch : List.Chain' (fun m m' : Str × Str × Str => m'.2.2.length < m.2.2.length)
        (scanHeaders text true) := scanHeadersAux_chain (text.length + 1) text true
    have hrel := List.chain'_iff_get.mp hch i (by omega)
    rw [List.get_eq_getElem, List.get_eq_getElem, he1, he2] at hrel
    have hlen : t'.length < t.length := hrel
    have heqd : text.drop (text.length - t.length) = t := suffix_drop hsuf
    have heqn : (text.length - t'.length) - (text.length - t.length) =
        t.length - t'.length := by
      have := hsuf.length_le
      have := hsuf'.length_le
      omega
    rw [heqd, heqn]
    exact buildBlocks_get_mid (scanHeaders text true) i g1 g2 t g1' g2' t' h1 h2
  · intro g1 g2 t h
    obtain ⟨hlt1, he1⟩ := List.getElem?_eq_some.mp h
    have hmem : ((g1, g2, t) : Str × Str × Str) ∈ scanHeaders text true :=
      he1 ▸ List.getElem_mem _
    have hsuf : t <:+ text :=
      scanHeadersAux_suffix (text.length + 1) text true _ hmem
    rw [suffix_drop hsuf]
    exact buildBlocks_get_last (scanHeaders text true) g1 g2 t h
  · intro h
    unfold parse_attribute_blocks
    rw [h]
    rfl

theorem c6_witness :
    (buildBlocks (scanHeaders "1.1 Attribute a\n2.2 Attribute b\nz".toList true))[0]? =
      some ("1.1".toList, "a".toList,
        (("1.1 Attribute a\n2.2 Attribute b\nz".toList).drop
            (("1.1 Attribute a\n2.2 Attribute b\nz".toList).length -
              ("1.1 Attribute a\n2.2 Attribute b\nz".toList).length)).take
          ((("1.1 Attribute a\n2.2 Attribute b\nz".toList).length -
              ("2.2 Attribute b\nz".toList).length) -
            (("1.1 Attribute a\n2.2 Attribute b\nz".toList).length -
              ("1.1 Attribute a\n2.2 Attribute b\nz".toList).length))) :=
  (c6_block_segmentation "1.1 Attribute a\n2.2 Attribute b\nz".toList []).2.1 0
    "1.1".toList "a".toList "1.1 Attribute a\n2.2 Attribute b\nz".toList
    "2.2".toList "b".toList "2.2 Attribute b\nz".toList (by decide) (by decide)

theorem isPrefixStr_decomp : ∀ (p l : Str), isPrefixStr p l = true → l = p ++ l.drop p.length
  | [], _, _ => by simp
  | _ :: _, [], h => by simp [isPrefixStr] at h
  | a :: as, b :: bs, h => by
    simp only [isPrefixStr, Bool.and_eq_true, decide_eq_true_eq] at h
    obtain ⟨hab, hrest⟩ := h
    subst hab
    simp only [List.length_cons, List.drop_succ_cons, List.cons_append]
    exact congrArg (List.cons _) (isPrefixStr_decomp as bs hrest)

theorem dropLabelCI_suffix : ∀ (p s u : Str), dropLabelCI p s = some u → u <:+ s
  | [], s, u, h => by
    simp only [dropLabelCI, Option.some.injEq] at h
    exact h ▸ List.suffix_refl s
  | _ :: _, [], _, h => by simp [dropLabelCI] at h
  | p :: ps, c :: cs, u, h => by
    simp only [dropLabelCI] at h
    split at h
    · exact (dropLabelCI_suffix ps cs u h).trans (List.suffix_cons c cs)
    · exact absurd h (by simp)

theorem splitLines_chars : ∀ (s line : Str), line ∈ splitLines s → ∀ c ∈ line, c ∈ s := by
  intro s
  induction s with
  | nil =>
    intro line hline c hc
    simp [splitLines] at hline
    subst hline
    simp at hc
  | cons c0 r ih =>
    intro line hline c hc
    by_cases h0 : c0 = '\n'
    · subst h0
      rw [splitLines, if_pos rfl] at hline
      rcases List.mem_cons.mp hline with h | h
      · subst h; simp at hc
      · exact List.mem_cons_of_mem _ (ih line h c hc)
    · rw [splitLines, if_neg h0] at hline
      cases hr : splitLines r with
      | nil =>
        rw [hr] at hline
        simp at hline
        subst hline
        simp at hc
        subst hc
        exact List.mem_cons_self _ _
      | cons l ls =>
        rw [hr] at hline
        rcases List.mem_cons.mp hline with h | h
        · subst h
          rcases List.mem_cons.mp hc with h | h
          · subst h; exact List.mem_cons_self _ _
          · exact List.mem_cons_of_mem _ (ih l (hr ▸ List.mem_cons_self _ _) c h)
        · exact List.mem_cons_of_mem _ (ih line (hr ▸ List.mem_cons_of_mem _ h) c hc)

theorem tryFieldLine_no_colon {label line : Str} {rest : List Str}
    (hc : ':' ∉ line) : tryFieldLine label line rest = none := by
  unfold tryFieldLine
  split
  · rename_i t1
    split
    · rename_i R heq
      have hmem : ':' ∈ t1 :=
        (dropLabelCI_suffix label t1 _ heq).mem (List.mem_cons_self _ _)
      exact absurd (List.mem_cons_of_mem _ hmem) hc
    · rfl
  · rfl

theorem searchFieldLines_no_colon :
    ∀ (label : Str) (lines : List Str),
      (∀ line ∈ lines, ':' ∉ line) → searchFieldLines label lines = none
  | _, [], _ => rfl
  | label, line :: rest, h => by
    rw [searchFieldLines,
      tryFieldLine_no_colon (h line (List.mem_cons_self _ _)),
      searchFieldLines_no_colon label rest
        (fun l hl => h l (List.mem_cons_of_mem _ hl))]

theorem searchField_no_colon {label block : Str} (hc : ':' ∉ block) :
    searchField label block = none := by
  unfold searchField
  exact searchFieldLines_no_colon label (splitLines block)
    (fun line hline hmem => hc (splitLines_chars block line hline ':' hmem))

theorem headerMatchAt_ws_no_colon {t g1 g2 r : Str}
    (h : headerMatchAt t = some (g1, g2, r)) (hg : stripStr g2 = []) :
    ':' ∉ t := by
  unfold headerMatchAt at h
  split at h
  · exact absurd h (by simp)
  · split at h
    case _ t2 heq =>
      split at h
      · exact absurd h (by simp)
      · split at h
        · exact absurd h (by simp)
        · split at h
          case _ hpre =>
            unfold headerTail at h
            split at h
            · exact absurd h (by simp)
            · split at h
              case _ c u' heq5 =>
                rw [Option.some.injEq, Prod.mk.injEq, Prod.mk.injEq] at h
                obtain ⟨-, hg2, -⟩ := h
                have hcs : isPySpace c = false := trimL_head_not heq5
                have hcn : c ≠ '\n' := by
                  intro hh
                  rw [hh] at hcs
                  exact absurd hcs (by decide)
                rw [List.takeWhile_cons_of_pos (by simp [hcn])] at hg2
                rw [← hg2] at hg
                unfold stripStr at hg
                rw [show trimL (c :: List.takeWhile (fun x => decide (x ≠ '\n')) u') =
                    c :: List.takeWhile (fun x => decide (x ≠ '\n')) u' from
                  List.dropWhile_cons_of_neg (by simp [hcs])] at hg
                have := trimR_nil_iff.mp hg c (List.mem_cons_self _ _)
                rw [hcs] at this
                exact absurd this (by decide)
              case _ heq5 =>
                split at h
                · exact absurd h (by simp)
                · exact absurd h (by simp)
                · have hall : ∀ x ∈ (((t2.dropWhile Char.isDigit).dropWhile isPySpace).drop
                      attrWord.length), isPySpace x = true := by
                    intro x hx
                    exact List.dropWhile_eq_nil_iff.mp heq5 x hx
                  intro hmem
                  have h0 : ':' ∈ t.takeWhile Char.isDigit ++ t.dropWhile Char.isDigit := by
                    rw [List.takeWhile_append_dropWhile]
                    exact hmem
                  rcases List.mem_append.mp h0 with hx | hx
                  · exact absurd (List.mem_takeWhile_imp hx) (by decide)
                  · rw [heq] at hx
                    rcases List.mem_cons.mp hx with hx | hx
                    · exact absurd hx (by decide)
                    · have h1 : ':' ∈ t2.takeWhile Char.isDigit ++ t2.dropWhile Char.isDigit := by
                        rw [List.takeWhile_append_dropWhile]
                        exact hx
                      rcases List.mem_append.mp h1 with hy | hy
                      · exact absurd (List.mem_takeWhile_imp hy) (by decide)
                      · have h2 : ':' ∈ (t2.dropWhile Char.isDigit).takeWhile isPySpace ++
                            (t2.dropWhile Char.isDigit).dropWhile isPySpace := by
                          rw [List.takeWhile_append_dropWhile]
                          exact hy
                        rcases List.mem_append.mp h2 with hz | hz
                        · exact absurd (List.mem_takeWhile_imp hz) (by decide)
                        · rw [isPrefixStr_decomp attrWord _ hpre] at hz
                          rcases List.mem_append.mp hz with hw | hw
                          · exact absurd hw (by decide)
                          · exact absurd (hall ':' hw) (by decide)
          · exact absurd h (by simp)
    case _ => exact absurd h (by simp)

theorem parseBlock_no_colon_key {block : Str} (sN pdf : Str) (hc : ':' ∉ block) :
    recKey (parseBlock block sN [] pdf) = none := by
  have hs : ∀ label, searchField label block = none := fun _ => searchField_no_colon hc
  unfold parseBlock
  simp only [extractPlain, extractFlag, hs, Option.map_none']
  rfl

theorem parseBlock_display_truthy {aN : Str} (block sN pdf : Str) (haN : aN ≠ []) :
    truthyO (parseBlock block sN aN pdf).ldap_display_name = true := by
  have hne : aN.isEmpty = false := by
    cases aN with
    | nil => exact absurd rfl haN
    | cons c r => rfl
  cases hE : extractPlain ldapDisplayNameLabel block with
  | none => simp [parseBlock, hE, truthyO, hne]
  | some s =>
    cases hs : s.isEmpty with
    | true => simp [parseBlock, hE, truthyO, hne, hs]
    | false => simp [parseBlock, hE, truthyO, hs]

theorem dictInsert_mem {table : List (Str × ADAttribute)} {k : Str} {v : ADAttribute}
    {p : Str × ADAttribute} (h : p ∈ dictInsert table k v) : p ∈ table ∨ p = (k, v) := by
  unfold dictInsert at h
  split at h
  · obtain ⟨q, hq, hpq⟩ := List.mem_map.mp h
    by_cases hqk : q.1 = k
    · right
      rw [if_pos hqk] at hpq
      exact hpq.symm
    · left
      rw [if_neg hqk] at hpq
      exact hpq ▸ hq
  · rcases List.mem_append.mp h with h | h
    · exact Or.inl h
    · right
      simpa using h

theorem consolidStep_mem {table : List (Str × ADAttribute)} {a0 : ADAttribute}
    {p : Str × ADAttribute} (h : p ∈ consolidStep table a0) :
    p ∈ table ∨ (p.2 = a0 ∧ ∃ key, recKey a0 = some key) := by
  unfold consolidStep at h
  split at h
  case _ key hkey =>
    rcases dictInsert_mem h with h | h
    · exact Or.inl h
    · exact Or.inr ⟨by rw [h], key, hkey⟩
  case _ => exact Or.inl h

theorem foldl_consolidStep_mem :
    ∀ (attrs : List ADAttribute) (table : List (Str × ADAttribute))
      (p : Str × ADAttribute), p ∈ attrs.foldl consolidStep table →
      p ∈ table ∨ (p.2 ∈ attrs ∧ ∃ key, recKey p.2 = some key) := by
  intro attrs
  induction attrs with
  | nil => intro table p h; exact Or.inl h
  | cons a rest ih =>
    intro table p h
    rw [List.foldl_cons] at h
    rcases ih (consolidStep table a) p h with h1 | h1
    · rcases consolidStep_mem h1 with h2 | h2
      · exact Or.inl h2
      · exact Or.inr ⟨h2.1 ▸ List.mem_cons_self _ _, h2.1 ▸ h2.2⟩
    · exact Or.inr ⟨List.mem_cons_of_mem _ h1.1, h1.2⟩

theorem consolidate_mem_aux :
    ∀ (docs : List (List ADAttribute)) (table : List (Str × ADAttribute))
      (p : Str × ADAttribute),
      p ∈ docs.foldl (fun t attrs => attrs.foldl consolidStep t) table →
      p ∈ table ∨ (p.2 ∈ docs.flatten ∧ ∃ key, recKey p.2 = some key) := by
  intro docs
  induction docs with
  | nil => intro table p h; exact Or.inl h
  | cons doc rest ih =>
    intro table p h
    rw [List.foldl_cons] at h
    rcases ih (doc.foldl consolidStep table) p h with h1 | h1
    · rcases foldl_consolidStep_mem doc table p h1 with h2 | h2
      · exact Or.inl h2
      · exact Or.inr ⟨by
          rw [List.flatten_cons]
          exact List.mem_append.mpr (Or.inl h2.1), h2.2⟩
    · exact Or.inr ⟨by
        rw [List.flatten_cons]
        exact List.mem_append.mpr (Or.inr h1.1), h1.2⟩

theorem consolidate_mem {docs : List (List ADAttribute)} {p : Str × ADAttribute}
    (h : p ∈ consolidate docs) :
    p.2 ∈ docs.flatten ∧ ∃ key, recKey p.2 = some key := by
  rcases consolidate_mem_aux docs [] p h with h1 | h1
  · simp at h1
  · exact h1

theorem scanHeadersAux_mem :
    ∀ (fuel : Nat) (t : Str) (b : Bool) (m : Str × Str × Str),
      m ∈ scanHeadersAux fuel t b →
      ∃ r, headerMatchAt m.2.2 = some (m.1, m.2.1, r) := by
  intro fuel
  induction fuel with
  | zero => intro t b m hm; simp [scanHeadersAux] at hm
  | succ fuel ih =>
    intro t b m hm
    rw [scanHeadersAux_succ] at hm
    by_cases hb : b
    · rw [if_pos hb] at hm
      cases hh : headerMatchAt t with
      | some x =>
        obtain ⟨g1, g2, r⟩ := x
        rw [hh] at hm
        rcases List.mem_cons.mp hm with h | h
        · subst h
          exact ⟨r, hh⟩
        · exact ih r false m h
      | none =>
        rw [hh] at hm
        cases t with
        | nil => simp at hm
        | cons c rest => exact ih rest (c = '\n') m hm
    · rw [if_neg hb] at hm
      cases t with
      | nil => simp at hm
      | cons c rest => exact ih rest (c = '\n') m hm

theorem buildBlocks_mem :
    ∀ (l : List (Str × Str × Str)) (m : Str × Str × Str), m ∈ buildBlocks l →
      ∃ t n, (m.1, m.2.1, t) ∈ l ∧ m.2.2 = t.take n := by
  intro l
  induction l with
  | nil => intro m hm; simp [buildBlocks] at hm
  | cons q rest ih =>
    intro m hm
    obtain ⟨g1, g2, t⟩ := q
    cases rest with
    | nil =>
      have hred : buildBlocks [(g1, g2, t)] = [(g1, g2, t.take 2000)] := rfl
      rw [hred] at hm
      simp at hm
      subst hm
      exact ⟨t, 2000, List.mem_cons_self _ _, rfl⟩
    | cons q2 rest2 =>
      obtain ⟨b1, b2, b3⟩ := q2
      have hred : buildBlocks ((g1, g2, t) :: (b1, b2, b3) :: rest2) =
          (g1, g2, t.take (t.length - b3.length)) ::
            buildBlocks ((b1, b2, b3) :: rest2) := rfl
      rw [hred] at hm
      rcases List.mem_cons.mp hm with h | h
      · subst h
        exact ⟨t, t.length - b3.length, List.mem_cons_self _ _, rfl⟩
      · obtain ⟨t', n, hmem, heq⟩ := ih m h
        exact ⟨t', n, List.mem_cons_of_mem _ hmem, heq⟩

theorem foldl_export_mem :
    ∀ (l : List (Str × Option Str)) (e : List (Str × JVal)) (f : Str) (v : JVal),
      (f, v) ∈ l.foldl
        (fun e p =>
          match p.2 with
          | some s => if s.isEmpty then e else e ++ [(p.1, coerceField p.1 s)]
          | none => e) e →
      (f, v) ∈ e ∨ ∃ s : Str, s ≠ [] ∧ v = coerceField f s := by
  intro l
  induction l with
  | nil => intro e f v h; exact Or.inl h
  | cons p rest ih =>
    intro e f v h
    rw [List.foldl_cons] at h
    rcases ih _ f v h with h1 | h1
    · cases hp : p.2 with
      | none =>
        rw [hp] at h1
        dsimp only at h1
        exact Or.inl h1
      | some s =>
        rw [hp] at h1
        dsimp only at h1
        by_cases hse : s.isEmpty
        · rw [if_pos hse] at h1
          exact Or.inl h1
        · rw [if_neg hse] at h1
          rcases List.mem_append.mp h1 with h2 | h2
          · exact Or.inl h2
          · simp at h2
            obtain ⟨hf, hv⟩ := h2
            refine Or.inr ⟨s, ?_, ?_⟩
            · intro hnil
              exact hse (by rw [hnil]; rfl)
            · rw [hv, hf]
    · exact Or.inr h1

theorem coerceField_ne {v : Str} (name : Str) (hv : v ≠ []) :
    coerceField name v ≠ JVal.null ∧ coerceField name v ≠ JVal.str [] := by
  unfold coerceField
  split
  · split
    · exact ⟨by simp, by simp⟩
    · split
      · exact ⟨by simp, by simp⟩
      · exact ⟨by simp, by simpa using hv⟩
  · split
    · split
      · exact ⟨by simp, by simp⟩
      · exact ⟨by simp, by simpa using hv⟩
    · exact ⟨by simp, by simpa using hv⟩

theorem exportEntry_mem {a : ADAttribute} {f : Str} {v : JVal}
    (hfv : (f, v) ∈ exportEntry a) (hd : truthyO a.ldap_display_name = true) :
    v ≠ JVal.null ∧ v ≠ JVal.str [] := by
  unfold exportEntry at hfv
  rcases List.mem_cons.mp hfv with h | h
  · cases hld : a.ldap_display_name with
    | none => rw [hld] at hd; exact absurd hd (by simp [truthyO])
    | some s =>
      rw [hld] at h hd
      have hs : s ≠ [] := by
        intro hnil
        rw [hnil] at hd
        exact absurd hd (by simp [truthyO])
      rw [Prod.mk.injEq] at h
      obtain ⟨-, hv⟩ := h
      rw [hv]
      exact ⟨by simp, by simpa using hs⟩
  · rcases foldl_export_mem (fieldMapping a) [] f v h with h1 | h1
    · simp at h1
    · obtain ⟨s, hs, hv⟩ := h1
      rw [hv]
      exact coerceField_ne f hs

theorem pipeline_display_truthy (docs : List (Str × Str)) (p : Str × ADAttribute)
    (hp : p ∈ parse_multiple_pdfs docs) : truthyO p.2.ldap_display_name = true := by
  obtain ⟨k', a⟩ := p
  unfold parse_multiple_pdfs at hp
  obtain ⟨hflat, key, hkey⟩ := consolidate_mem hp
  have hflat' : a ∈ (docs.map (fun d => parse_attribute_blocks d.2 d.1)).flatten := hflat
  have hkey' : recKey a = some key := hkey
  obtain ⟨lrec, hlrec, harec⟩ := List.mem_flatten.mp hflat'
  obtain ⟨d, hd, hld⟩ := List.mem_map.mp hlrec
  subst hld
  unfold parse_attribute_blocks at harec
  obtain ⟨m, hmB, hma⟩ := List.mem_map.mp harec
  obtain ⟨t, n, hmS, hbt⟩ := buildBlocks_mem _ m hmB
  obtain ⟨r, hhm⟩ := scanHeadersAux_mem _ _ _ _ hmS
  show truthyO a.ldap_display_name = true
  by_cases hgs : stripStr m.2.1 = []
  · exfalso
    have hcol : ':' ∉ t := headerMatchAt_ws_no_colon hhm hgs
    have hcolb : ':' ∉ m.2.2 := by
      rw [hbt]
      exact fun hmem => hcol (List.take_subset n t hmem)
    have hnone : recKey a = none := by
      rw [← hma, hgs]
      exact parseBlock_no_colon_key m.1 d.1 hcolb
    rw [hnone] at hkey'
    exact absurd hkey' (by simp)
  · rw [← hma]
    exact parseBlock_display_truthy m.2.2 m.1 d.1 hgs

/-- C1: every entry of the enhanced-schema export
(`export_to_enhanced_json`) of a table consolidated by
`parse_multiple_pdfs` maps each of its field names — `ldapDisplayName`
included — to a value that is neither JSON null nor the empty string. -/
theorem c1_export_no_null_empty (docs : List (Str × Str)) (k f : Str)
    (entry : List (Str × JVal)) (v : JVal)
    (hke : (k, entry) ∈ export_to_enhanced_json (parse_multiple_pdfs docs))
    (hfv : (f, v) ∈ entry) :
    v ≠ JVal.null ∧ v ≠ JVal.str [] := by
  unfold export_to_enhanced_json at hke
  obtain ⟨⟨k', a⟩, hmemT, heq⟩ := List.mem_map.mp hke
  rw [Prod.mk.injEq] at heq
  obtain ⟨hk, hentry⟩ := heq
  have hdisp : truthyO a.ldap_display_name = true :=
    pipeline_display_truthy docs (k', a) hmemT
  rw [← hentry] at hfv
  exact exportEntry_mem hfv hdisp

theorem c1_witness :
    (("myAttr".toList,
        [(ldapDisplayNameKey, JVal.str "myAttr".toList),
         (cnKey, JVal.str "Foo".toList)]) ∈
      export_to_enhanced_json (parse_multiple_pdfs
        [("doc".toList, "1.1 Attribute myAttr\n\u00A0cn: Foo\nx".toList)])) ∧
    JVal.str "Foo".toList ≠ JVal.null ∧ JVal.str "Foo".toList ≠ JVal.str [] :=
  ⟨by decide,
   c1_export_no_null_empty
     [("doc".toList, "1.1 Attribute myAttr\n\u00A0cn: Foo\nx".toList)]
     "myAttr".toList cnKey
     [(ldapDisplayNameKey, JVal.str "myAttr".toList),
      (cnKey, JVal.str "Foo".toList)]
     (JVal.str "Foo".toList) (by decide) (by decide)⟩

theorem foldl_export_mono :
    ∀ (l : List (Str × Option Str)) (e : List (Str × JVal)) (x : Str × JVal),
      x ∈ e →
      x ∈ l.foldl
        (fun e p =>
          match p.2 with
          | some s => if s.isEmpty then e else e ++ [(p.1, coerceField p.1 s)]
          | none => e) e := by
  intro l
  induction l with
  | nil => intro e x hx; exact hx
  | cons p rest ih =>
    intro e x hx
    rw [List.foldl_cons]
    refine ih _ x ?_
    cases hp : p.2 with
    | none => exact hx
    | some s =>
      dsimp only
      by_cases hse : s.isEmpty
      · rw [if_pos hse]
        exact hx
      · rw [if_neg hse]
        exact List.mem_append_left _ hx

theorem foldl_export_mem_of :
    ∀ (l : List (Str × Option Str)) (e : List (Str × JVal)) (name s : Str),
      (name, some s) ∈ l → s ≠ [] →
      (name, coerceField name s) ∈ l.foldl
        (fun e p =>
          match p.2 with
          | some s => if s.isEmpty then e else e ++ [(p.1, coerceField p.1 s)]
          | none => e) e := by
  intro l
  induction l with
  | nil => intro e name s hmem _; simp at hmem
  | cons p rest ih =>
    intro e name s hmem hs
    rw [List.foldl_cons]
    rcases List.mem_cons.mp hmem with h | h
    · have hse : s.isEmpty = false := by
        cases s with
        | nil => exact absurd rfl hs
        | cons c r => rfl
      rw [← h]
      dsimp only
      rw [hse]
      exact foldl_export_mono rest _ _
        (List.mem_append_right _ (List.mem_singleton.mpr rfl))
    · exact ih _ name s h hs

/-- C8: for each of the four integer-coerced fields (`omSyntax`,
`rangeLower`, `rangeUpper`, `mapiID`), a record carrying a non-null,
non-empty raw string value exports that field as the parsed integer when
Python `int()` succeeds on the value and as the original string unchanged
when it fails; the field is present in the exported entry in either case
(the coercion is total — the `ValueError` path is absorbed, never
propagated, and the field is never dropped). -/
theorem c8_int_field_coercion (a : ADAttribute) (name s : Str)
    (hname : name ∈ intFieldKeys)
    (hfield : (name, some s) ∈ fieldMapping a)
    (hs : s ≠ []) :
    (name,
      match pyInt s with
      | some n => JVal.int n
      | none => JVal.str s) ∈ exportEntry a := by
  have hnb : name ∉ boolFieldKeys := by
    simp only [intFieldKeys, List.mem_cons, List.not_mem_nil, or_false] at hname
    rcases hname with rfl | rfl | rfl | rfl <;> decide
  have hcoerce : coerceField name s =
      match pyInt s with
      | some n => JVal.int n
      | none => JVal.str s := by
    unfold coerceField
    rw [if_neg hnb, if_pos hname]
  rw [← hcoerce]
  unfold exportEntry
  exact List.mem_cons_of_mem _ (foldl_export_mem_of (fieldMapping a) [] name s hfield hs)

theorem c8_witness :
    ((rangeLowerKey,
      match pyInt "15".toList with
      | some n => JVal.int n
      | none => JVal.str "15".toList) ∈
        exportEntry { range_lower := some "15".toList }) ∧
    ((mapiIDKey,
      match pyInt "0x3F".toList with
      | some n => JVal.int n
      | none => JVal.str "0x3F".toList) ∈
        exportEntry { mapi_id := some "0x3F".toList }) :=
  ⟨c8_int_field_coercion { range_lower := some "15".toList } rangeLowerKey
      "15".toList (by decide) (by decide) (by decide),
   c8_int_field_coercion { mapi_id := some "0x3F".toList } mapiIDKey
      "0x3F".toList (by decide) (by decide) (by decide)⟩

theorem exportEntry_display_find {a : ADAttribute}
    (hd : truthyO a.ldap_display_name = true) :
    ∃ s : Str, s ≠ [] ∧
      assocFind ldapDisplayNameKey (exportEntry a) = some (JVal.str s) := by
  cases hld : a.ldap_display_name with
  | none => rw [hld] at hd; exact absurd hd (by simp [truthyO])
  | some s =>
    refine ⟨s, ?_, ?_⟩
    · intro hnil
      rw [hld, hnil] at hd
      exact absurd hd (by simp [truthyO])
    · unfold exportEntry assocFind
      rw [hld, List.find?_cons_of_pos _ (by simp)]
      rfl

/-- C9: `load_schema_mappings` maps every key of the loaded schema object
to the entry's `ldapDisplayName` value when that field is present, else to
the `cn` value when that is present, else to the synthesized placeholder
`"Unknown-" ++ key`; and on any schema object produced by the extraction
pipeline the chosen name is never null and never an empty string (the
pipeline always writes a non-empty `ldapDisplayName` first). -/
theorem c9_load_schema_names (d : List (Str × List (Str × JVal)))
    (docs : List (Str × Str)) (k : Str) (entry : List (Str × JVal)) :
    ((k, entry) ∈ d → (k, pickName k entry) ∈ load_schema_mappings d) ∧
    (∀ v, assocFind ldapDisplayNameKey entry = some v → pickName k entry = v) ∧
    (assocFind ldapDisplayNameKey entry = none →
      ∀ v, assocFind cnKey entry = some v → pickName k entry = v) ∧
    (assocFind ldapDisplayNameKey entry = none → assocFind cnKey entry = none →
      pickName k entry = JVal.str ("Unknown-".toList ++ k)) ∧
    ((k, entry) ∈ export_to_enhanced_json (parse_multiple_pdfs docs) →
      pickName k entry ≠ JVal.null ∧ pickName k entry ≠ JVal.str []) := by
  refine ⟨?_, ?_, ?_, ?_, ?_⟩
  · intro h
    exact List.mem_map.mpr ⟨(k, entry), h, rfl⟩
  · intro v hv
    unfold pickName
    rw [hv]
  · intro h0 v hv
    unfold pickName
    rw [h0, hv]
  · intro h0 h1
    unfold pickName
    rw [h0, h1]
  · intro hke
    unfold export_to_enhanced_json at hke
    obtain ⟨⟨k', a⟩, hmemT, heq⟩ := List.mem_map.mp hke
    rw [Prod.mk.injEq] at heq
    obtain ⟨hk, hentry⟩ := heq
    have hdisp : truthyO a.ldap_display_name = true :=
      pipeline_display_truthy docs (k', a) hmemT
    obtain ⟨s, hs, hfind⟩ := exportEntry_display_find hdisp
    rw [hentry] at hfind
    have hpick : pickName k entry = JVal.str s := by
      unfold pickName
      rw [hfind]
    rw [hpick]
    exact ⟨by simp, by simpa using hs⟩

theorem c9_witness :
    (("attTwo".toList, pickName "attTwo".toList
        [(ldapDisplayNameKey, JVal.str "attTwo".toList)]) ∈
      load_schema_mappings (export_to_enhanced_json (parse_multiple_pdfs
        [("d".toList, "2.3 Attribute attTwo\nzz".toList)]))) ∧
    (pickName "attTwo".toList [(ldapDisplayNameKey, JVal.str "attTwo".toList)] ≠
        JVal.null ∧
      pickName "attTwo".toList [(ldapDisplayNameKey, JVal.str "attTwo".toList)] ≠
        JVal.str []) :=
  ⟨(c9_load_schema_names
      (export_to_enhanced_json (parse_multiple_pdfs
        [("d".toList, "2.3 Attribute attTwo\nzz".toList)]))
      [("d".toList, "2.3 Attribute attTwo\nzz".toList)]
      "attTwo".toList [(ldapDisplayNameKey, JVal.str "attTwo".toList)]).1
      (by decide),
   (c9_load_schema_names
      (export_to_enhanced_json (parse_multiple_pdfs
        [("d".toList, "2.3 Attribute attTwo\nzz".toList)]))
      [("d".toList, "2.3 Attribute attTwo\nzz".toList)]
      "attTwo".toList [(ldapDisplayNameKey, JVal.str "attTwo".toList)]).2.2.2.2
      (by decide)⟩

theorem findS_update_self (t : List (Str × Str)) (k v : Str) :
    (t.map (fun p => if p.1 = k then (k, v) else p)).find? (fun p => p.1 = k) =
      if t.any (fun p => p.1 = k) then some (k, v) else none := by
  induction t with
  | nil => rfl
  | cons p rest ih =>
    by_cases hp : p.1 = k
    · rw [List.map_cons, if_pos hp, List.find?_cons_of_pos _ (by simp), List.any_cons]
      have hc : (decide (p.1 = k) || rest.any fun q => decide (q.1 = k)) = true := by
        simp [hp]
      simp only [hc, if_true]
    · simp only [List.map_cons, if_neg hp, List.any_cons]
      rw [List.find?_cons_of_neg _ (by simpa using hp), ih]
      have hd : decide (p.1 = k) = false := by simp [hp]
      simp only [hd, Bool.false_or]

theorem findS_update_other (t : List (Str × Str)) (k k' v : Str) (h : k' ≠ k) :
    (t.map (fun p => if p.1 = k then (k, v) else p)).find? (fun p => p.1 = k') =
      t.find? (fun p => p.1 = k') := by
  induction t with
  | nil => rfl
  | cons p rest ih =>
    by_cases hp : p.1 = k
    · rw [List.map_cons, if_pos hp, List.find?_cons_of_neg _ (by simp [Ne.symm h]),
        List.find?_cons_of_neg _ (by simp [hp, Ne.symm h]), ih]
    · rw [List.map_cons, if_neg hp]
      by_cases hp' : p.1 = k'
      · rw [List.find?_cons_of_pos _ (by simpa using hp'),
          List.find?_cons_of_pos _ (by simpa using hp')]
      · rw [List.find?_cons_of_neg _ (by simpa using hp'),
          List.find?_cons_of_neg _ (by simpa using hp'), ih]

theorem assocFindS_dictInsertS (t : List (Str × Str)) (k k' v : Str) :
    assocFindS k' (dictInsertS t k v) = if k' = k then some v else assocFindS k' t := by
  unfold assocFindS dictInsertS
  by_cases han : t.any (fun p => p.1 = k)
  · rw [if_pos han]
    by_cases hk : k' = k
    · subst hk
      rw [findS_update_self, if_pos han]
      simp
    · rw [findS_update_other t k k' v hk, if_neg hk]
  · rw [if_neg han, List.find?_append]
    by_cases hk : k' = k
    · subst hk
      have hnone : t.find? (fun p => p.1 = k') = none := by
        rw [List.find?_eq_none]
        intro x hx
        simp only [decide_eq_true_eq]
        intro hxk
        exact han (List.any_eq_true.mpr ⟨x, hx, by simpa using hxk⟩)
      rw [hnone]
      simp [List.find?_cons]
    · cases hx : t.find? (fun p => p.1 = k') with
      | none =>
        rw [List.find?_cons_of_neg _ (by simp only [decide_eq_true_eq]; exact fun hc => hk hc.symm)]
        simp [hk]
      | some q =>
        simp [hk]

theorem mem_of_getLast?_eq {α : Type} {l : List α} {a : α}
    (h : l.getLast? = some a) : a ∈ l := by
  have hne : l ≠ [] := by
    intro hl
    rw [hl] at h
    simp at h
  rw [List.getLast?_eq_getLast l hne, Option.some.injEq] at h
  rw [← h]
  exact List.getLast_mem hne

theorem assocFindS_fold_insert :
    ∀ (m : List (Str × Str)) (e : List (Str × Str)) (n : Str),
      assocFindS n (m.foldl (fun acc p => dictInsertS acc p.2 p.1) e) =
        match (m.filter (fun p => p.2 = n)).getLast? with
        | some q => some q.1
        | none => assocFindS n e := by
  intro m
  induction m with
  | nil => intro e n; rfl
  | cons p rest ih =>
    intro e n
    rw [List.foldl_cons, ih]
    cases hrest : (rest.filter (fun p => p.2 = n)).getLast? with
    | some q =>
      have hne : rest.filter (fun p => decide (p.2 = n)) ≠ [] := by
        intro hnil
        rw [hnil] at hrest
        simp at hrest
      by_cases hp : p.2 = n
      · rw [List.filter_cons_of_pos (by simpa using hp),
          getLast?_cons_of_ne_nil _ hne, hrest]
      · rw [List.filter_cons_of_neg (by simpa using hp), hrest]
    | none =>
      have hfil : rest.filter (fun p => decide (p.2 = n)) = [] := by
        cases hf : rest.filter (fun p => decide (p.2 = n)) with
        | nil => rfl
        | cons x xs =>
          rw [hf] at hrest
          exact absurd hrest (by simp)
      by_cases hp : p.2 = n
      · rw [List.filter_cons_of_pos (by simpa using hp), hfil,
          assocFindS_dictInsertS, if_pos hp.symm]
        rfl
      · rw [List.filter_cons_of_neg (by simpa using hp), hfil,
          assocFindS_dictInsertS, if_neg (fun h => hp h.symm)]
        rfl

theorem lookup_by_name_eq (m : List (Str × Str)) (n : Str) :
    lookup_by_name m n =
      match (m.filter (fun p => p.2 = n)).getLast? with
      | some q => some q.1
      | none => none := by
  unfold lookup_by_name name_to_guid
  rw [assocFindS_fold_insert]
  cases (m.filter (fun p => p.2 = n)).getLast? <;> rfl

theorem assocFindS_of_mem_nodup :
    ∀ {m : List (Str × Str)} {k n : Str},
      (m.map Prod.fst).Nodup → (k, n) ∈ m → assocFindS k m = some n := by
  intro m
  induction m with
  | nil => intro k n _ h; simp at h
  | cons p rest ih =>
    intro k n hnd hmem
    rw [List.map_cons, List.nodup_cons] at hnd
    rcases List.mem_cons.mp hmem with h | h
    · rw [← h]
      unfold assocFindS
      rw [List.find?_cons_of_pos _ (by simp)]
      rfl
    · by_cases hpk : p.1 = k
      · exact absurd (hpk ▸ List.mem_map.mpr ⟨(k, n), h, rfl⟩) hnd.1
      · unfold assocFindS at ih ⊢
        rw [List.find?_cons_of_neg _ (by simpa using hpk)]
        exact ih hnd.2 h

theorem filter_eq_singleton_of_nodup :
    ∀ {m : List (Str × Str)} {k n : Str},
      (m.map Prod.snd).Nodup → (k, n) ∈ m →
      m.filter (fun p => p.2 = n) = [(k, n)] := by
  intro m
  induction m with
  | nil => intro k n _ h; simp at h
  | cons p rest ih =>
    intro k n hnd hmem
    rw [List.map_cons, List.nodup_cons] at hnd
    rcases List.mem_cons.mp hmem with h | h
    · rw [← h]
      rw [← h] at hnd
      rw [List.filter_cons_of_pos (by simp)]
      have hfil : rest.filter (fun p => decide (p.2 = n)) = [] := by
        rw [List.filter_eq_nil_iff]
        intro q hq hqn
        simp only [decide_eq_true_eq] at hqn
        exact hnd.1 (List.mem_map.mpr ⟨q, hq, hqn⟩)
      rw [hfil]
    · have hpn : ¬p.2 = n := by
        intro hpn
        exact hnd.1 (hpn ▸ List.mem_map.mpr ⟨(k, n), h, rfl⟩)
      rw [List.filter_cons_of_neg (by simpa using hpn)]
      exact ih hnd.2 h

/-- C10: over a key-to-name mapping whose keys are distinct (it models a
Python dict), when the display names are pairwise distinct every key
round-trips: `lookup_by_guid` followed by `lookup_by_name` on the looked-up
name returns the original key, for keys that are fixed points of
`normalize_guid` (as brace-free stripped keys are); when two distinct keys
carry the same name, `lookup_by_name` resolves that name to exactly one
key of the mapping, so the round trip must fail for at least one of the
two. -/
theorem c10_reverse_round_trip (m : List (Str × Str))
    (hK : (m.map Prod.fst).Nodup) :
    (∀ k n, (m.map Prod.snd).Nodup → (k, n) ∈ m → normalize_guid k = k →
      lookup_by_guid m k = some n ∧ lookup_by_name m n = some k) ∧
    (∀ k1 k2 n, (k1, n) ∈ m → (k2, n) ∈ m → k1 ≠ k2 →
      ∃ k, lookup_by_name m n = some k ∧ (k, n) ∈ m ∧ (k ≠ k1 ∨ k ≠ k2)) := by
  constructor
  · intro k n hN hmem hnorm
    constructor
    · unfold lookup_by_guid
      rw [hnorm]
      exact assocFindS_of_mem_nodup hK hmem
    · rw [lookup_by_name_eq, filter_eq_singleton_of_nodup hN hmem]
      rfl
  · intro k1 k2 n h1 h2 hne
    have hmemf : (k1, n) ∈ m.filter (fun p => decide (p.2 = n)) :=
      List.mem_filter.mpr ⟨h1, by simp⟩
    have hfe : m.filter (fun p => decide (p.2 = n)) ≠ [] := by
      intro hnil
      rw [hnil] at hmemf
      simp at hmemf
    obtain ⟨q, hq⟩ := Option.isSome_iff_exists.mp
      (List.getLast?_isSome.mpr hfe)
    have hqmem : q ∈ m.filter (fun p => decide (p.2 = n)) :=
      mem_of_getLast?_eq hq
    have hqn : q.2 = n := by
      have := List.of_mem_filter hqmem
      simpa using this
    refine ⟨q.1, ?_, ?_, ?_⟩
    · rw [lookup_by_name_eq, hq]
    · have hqq : (q.1, n) = q := by
        rw [← hqn]
      rw [hqq]
      exact (List.mem_filter.mp hqmem).1
    · by_cases h : q.1 = k1
      · exact Or.inr (h ▸ hne)
      · exact Or.inl h

theorem c10_witness :
    lookup_by_guid [("g-1".toList, "a".toList), ("g-2".toList, "b".toList)]
      "g-1".toList = some "a".toList ∧
    lookup_by_name [("g-1".toList, "a".toList), ("g-2".toList, "b".toList)]
      "a".toList = some "g-1".toList :=
  (c10_reverse_round_trip
      [("g-1".toList, "a".toList), ("g-2".toList, "b".toList)] (by decide)).1
    "g-1".toList "a".toList (by decide) (by decide) (by decide)
